import Mathlib

/-!
Verification of the OBDD engine (`src/obdd.py`, `src/boolean.py`).

The Python engine hash-conses nodes: `_NODES` maps the structural key
`(root, lo, hi)` to the unique live node with that shape, so two live nodes
are identical (Python `is`) exactly when they are structurally equal.  The
shallow embedding therefore represents a node by an inductive value `N`;
Lean equality of `N` values corresponds to Python node identity.

Terminals are modelled by the constructors `N.zero` / `N.one`
(`BDDNODEZERO` / `BDDNODEONE`, whose Python roots are the sentinels -1 and -2
and which the code always compares with `is`); internal nodes carry their
splitting variable's `uniqid` (a positive integer allocated by
`boolean.var`) and the two children.
-/

namespace OBDDSpec

/-- Shallow embedding of `OBDDNode`: a terminal (`BDDNODEZERO`/`BDDNODEONE`)
or an internal node `(root, lo, hi)` keyed by the splitting variable's uniqid. -/
inductive N where
  | zero : N
  | one : N
  | node (root : Nat) (lo : N) (hi : N) : N
deriving DecidableEq

/-- The set of variable uniqids occurring in a node graph (the roots of all
reachable internal nodes). -/
def vars : N → Finset Nat
  | .zero => ∅
  | .one => ∅
  | .node r lo hi => insert r (vars lo ∪ vars hi)

/-- Size of the node term, used as an induction measure. -/
def sizeN : N → Nat
  | .zero => 1
  | .one => 1
  | .node _ lo hi => sizeN lo + sizeN hi + 1

/-- `_obddnode(root, lo, hi)` from `src/obdd.py`: the Node Store constructor.
If `lo is hi` the common child is returned (the reduction rule); otherwise the
canonical node with key `(root, lo, hi)` is returned.  Hash-consing makes the
looked-up instance structurally equal to the key, so in the embedding this is
just the (possibly collapsed) structural node. -/
def _obddnode (root : Nat) (lo hi : N) : N :=
  if lo = hi then lo else N.node root lo hi

/-- `_neg(node)` from `src/obdd.py`: swap the terminals, otherwise rebuild
with negated children through the Node Store. -/
def _neg : N → N
  | .zero => .one
  | .one => .zero
  | .node r lo hi => _obddnode r (_neg lo) (_neg hi)

/-- A one-variable assignment `{root: BDDNODEZERO or BDDNODEONE}` as used by
`_ite` (`npoint0` / `npoint1`); `true` stands for `BDDNODEONE`. -/
def single (r : Nat) (b : Bool) : Nat → Option Bool :=
  fun x => if x = r then some b else none

/-- `_restrict(node, npoint)` from `src/obdd.py`.  `npoint` maps a variable
uniqid to the constant it is fixed to (`true` = `BDDNODEONE` selects `hi`,
`false` = `BDDNODEZERO` selects `lo`).  The Python per-call memo cache only
avoids recomputation of this pure function and is dropped from the model. -/
def _restrict (pt : Nat → Option Bool) : N → N
  | .zero => .zero
  | .one => .one
  | .node r lo hi =>
    match pt r with
    | some true => _restrict pt hi
    | some false => _restrict pt lo
    | none => _obddnode r (_restrict pt lo) (_restrict pt hi)

/-- Minimum of a list of naturals; `none` on the empty list (where Python's
`min` raises `ValueError`). -/
def listMin : List Nat → Option Nat
  | [] => none
  | x :: xs => some (xs.foldl Nat.min x)

/-- The roots of the non-terminal nodes in the list, mirroring the generator
`node.root for node in (f, g, h) if node.root > 0` (terminals have the
negative sentinel roots -1 and -2, hence the positivity guard). -/
def topRoots (l : List N) : List Nat :=
  l.filterMap fun n =>
    match n with
    | .node r _ _ => if 0 < r then some r else none
    | _ => none

/-- Fueled version of `_ite(f, g, h)` from `src/obdd.py`.  The fuel argument
is only a termination device for Lean; `ite_eq_unfold` below proves that with
the fuel supplied by `_ite` the function satisfies exactly the recursion of
the source (ordered shortcut cases first, then Shannon expansion on the
minimal positive root, rebuilding through the Node Store).  The `none` branch
of `listMin` corresponds to Python's `min()` raising `ValueError` on an empty
sequence; it is unreachable for well-formed inputs. -/
def _iteF : Nat → N → N → N → N
  | 0, _, _, _ => N.zero
  | k + 1, f, g, h =>
    if g = N.one ∧ h = N.zero then f
    else if g = N.zero ∧ h = N.one then _neg f
    else if f = N.one then g
    else if f = N.zero then h
    else if g = h then g
    else
      match listMin (topRoots [f, g, h]) with
      | none => N.zero
      | some r =>
          _obddnode r
            (_iteF k (_restrict (single r false) f) (_restrict (single r false) g)
              (_restrict (single r false) h))
            (_iteF k (_restrict (single r true) f) (_restrict (single r true) g)
              (_restrict (single r true) h))

/-- Fuel that strictly dominates the recursion depth of `_ite`: one more than
the number of distinct variables in the three arguments. -/
def iteFuel (f g h : N) : Nat := (vars f ∪ vars g ∪ vars h).card + 1

/-- `_ite(f, g, h)` from `src/obdd.py`. -/
def _ite (f g h : N) : N := _iteF (iteFuel f g h) f g h

/-- Boolean function denoted by a node: the semantics of the diagram under an
assignment of the variables (by uniqid). -/
def evalN : N → (Nat → Bool) → Bool
  | .zero, _ => false
  | .one, _ => true
  | .node r lo hi, env => if env r then evalN hi env else evalN lo env

/-- The reduced-and-ordered invariant, with an explicit strict lower bound on
every root: all reachable internal nodes have distinct children, and roots
strictly increase along every path (so with bound 0 all roots are positive,
matching the uniqids allocated from 1). -/
def wfLB (m : Nat) : N → Bool
  | .zero => true
  | .one => true
  | .node r lo hi => decide (m < r) && decide (lo ≠ hi) && wfLB r lo && wfLB r hi

/-- Well-formed node: reduced and ordered, with all roots positive. -/
def wf (n : N) : Bool := wfLB 0 n

/-- Pointwise update of an assignment at one variable. -/
def upd (env : Nat → Bool) (x : Nat) (b : Bool) : Nat → Bool :=
  fun y => if y = x then b else env y

/-- An assignment overridden by a partial constant map, the environment
counterpart of `_restrict`. -/
def ov (pt : Nat → Option Bool) (env : Nat → Bool) : Nat → Bool :=
  fun x => (pt x).getD (env x)

/-- The node of a variable diagram, built by `OBDDVariable.__init__` as
`_obddnode(bvar.uniqid, BDDNODEZERO, BDDNODEONE)`. -/
def varNode (u : Nat) : N := _obddnode u N.zero N.one

/-- A node depends semantically on variable `x` when some assignment can be
flipped at `x` to change the function's value (membership in the support). -/
def dependsOn (n : N) (x : Nat) : Prop :=
  ∃ env, evalN n (upd env x true) ≠ evalN n (upd env x false)

/-- Shallow embedding of `OrderedBinaryDecisionDiagram`: the diagram wrapper
holds exactly one node.  `_obdd` hash-conses wrappers per node (`_BDDS`), so
wrapper identity corresponds to equality of the wrapped node, which the
one-field structure captures. -/
structure OrderedBinaryDecisionDiagram where
  node : N
deriving DecidableEq

/-- The constant-false diagram `BDDZERO`. -/
def BDDZERO : OrderedBinaryDecisionDiagram := ⟨N.zero⟩

/-- The constant-true diagram `BDDONE`. -/
def BDDONE : OrderedBinaryDecisionDiagram := ⟨N.one⟩

/-- The canonical variable diagram returned by `obddvar`. -/
def varDiagram (u : Nat) : OrderedBinaryDecisionDiagram := ⟨varNode u⟩

/-- `__invert__`: NOT. -/
def bddNot (f : OrderedBinaryDecisionDiagram) : OrderedBinaryDecisionDiagram :=
  ⟨_neg f.node⟩

/-- `__or__`: `f | g = ITE(f, 1, g)`. -/
def bddOr (f g : OrderedBinaryDecisionDiagram) : OrderedBinaryDecisionDiagram :=
  ⟨_ite f.node N.one g.node⟩

/-- `__and__`: `f & g = ITE(f, g, 0)`. -/
def bddAnd (f g : OrderedBinaryDecisionDiagram) : OrderedBinaryDecisionDiagram :=
  ⟨_ite f.node g.node N.zero⟩

/-- `__xor__`: `f ^ g = ITE(f, g', g)`. -/
def bddXor (f g : OrderedBinaryDecisionDiagram) : OrderedBinaryDecisionDiagram :=
  ⟨_ite f.node (_neg g.node) g.node⟩

/-- `__rshift__`: `f >> g = ITE(f', 1, g)` (implication). -/
def bddImp (f g : OrderedBinaryDecisionDiagram) : OrderedBinaryDecisionDiagram :=
  ⟨_ite (_neg f.node) N.one g.node⟩

/-- `equivalent(self, other)` from `src/obdd.py`: `self.node is other.node`,
an identity comparison of the wrapped nodes (identity coincides with
structural equality by hash-consing). -/
def equivalent (d1 d2 : OrderedBinaryDecisionDiagram) : Bool :=
  decide (d1.node = d2.node)

/-- The public `restrict` method specialised to a single variable/value pair:
`diagram.restrict({v: val})` builds `npoint = {v.node.root: box(val).node}`
and calls `_restrict`. -/
def diagRestrict1 (f : OrderedBinaryDecisionDiagram) (x : Nat) (b : Bool) :
    OrderedBinaryDecisionDiagram :=
  ⟨_restrict (single x b) f.node⟩

/-- Diagrams producible through the public operations of the engine: the
terminal constants, variable creation, NOT, OR, AND, XOR, implication and
restrict (every Boolean operator routes through `_ite`). -/
inductive Built : N → Prop
  | zero : Built N.zero
  | one : Built N.one
  | var (u : Nat) (hu : 0 < u) : Built (varNode u)
  | not {f : N} : Built f → Built (_neg f)
  | or {f g : N} : Built f → Built g → Built (_ite f N.one g)
  | and {f g : N} : Built f → Built g → Built (_ite f g N.zero)
  | xor {f g : N} : Built f → Built g → Built (_ite f (_neg g) g)
  | imp {f g : N} : Built f → Built g → Built (_ite (_neg f) N.one g)
  | restrict {f : N} (x : Nat) (b : Bool) : Built f → Built (_restrict (single x b) f)

/-- `_dfs_postorder(node, visited)` from `src/obdd.py`: traverse `lo`, then
`hi`, then yield the node itself unless it is already in the visited set
(which is threaded through, as Python mutates one shared set).  Returns the
yielded nodes in order together with the final visited set. -/
def dfsPost : N → List N → List N × List N
  | N.zero, vis => if N.zero ∈ vis then ([], vis) else ([N.zero], N.zero :: vis)
  | N.one, vis => if N.one ∈ vis then ([], vis) else ([N.one], N.one :: vis)
  | N.node r lo hi, vis =>
    let plo := dfsPost lo vis
    let phi := dfsPost hi plo.2
    if N.node r lo hi ∈ phi.2 then (plo.1 ++ phi.1, phi.2)
    else (plo.1 ++ phi.1 ++ [N.node r lo hi], N.node r lo hi :: phi.2)

/-- One step of the accumulation loop of
`OrderedBinaryDecisionDiagram.inputs`: for a yielded node with `root > 0`,
append the root's variable unless it was already collected. -/
def collectStep (acc : List Nat) (m : N) : List Nat :=
  match m with
  | N.node r _ _ => if 0 < r then (if r ∈ acc then acc else acc ++ [r]) else acc
  | _ => acc

/-- The accumulation loop of `OrderedBinaryDecisionDiagram.inputs` over the
post-order node sequence. -/
def collectRoots (ys : List N) : List Nat :=
  ys.foldl collectStep []

/-- `OrderedBinaryDecisionDiagram.inputs` (the spec's `support`): collect the
variables of the internal nodes in DFS post-order, first occurrence only, and
reverse the result.  Variables are identified by their uniqid (`_VARS` maps a
uniqid to its unique `OBDDVariable` instance, so this loses nothing). -/
def inputsList (n : N) : List Nat :=
  (collectRoots (dfsPost n []).1).reverse

/-- `Function.top` from `src/boolean.py`: the first element of `inputs`, or
none when `inputs` is empty. -/
def topVar (f : OrderedBinaryDecisionDiagram) : Option Nat :=
  (inputsList f.node).head?

/-- Concrete counterexample diagram for the support-ordering question: the
ordered, reduced diagram of `if x1 then x3 else x2` (it equals
`_ite (varNode 1) (varNode 3) (varNode 2)`, e.g. `(a & c) | (~a & b)` for
variables `a`, `b`, `c` with uniqids 1, 2, 3). -/
def exSupport : N := N.node 1 (N.node 2 N.zero N.one) (N.node 3 N.zero N.one)

/-! ## The variable registry (`src/boolean.py`) -/

/-- A variable identity: the `(names, indices)` key of `VARIABLES` and
`_UNIQIDS`. -/
abbrev Identity : Type := List String × List Int

/-- Association-list lookup with the key first, mirroring a Python dict
access (`d[k]` / `d.get(k)`); insertion order is the list order, as for
Python dicts. -/
def alookup {α : Type} (k : Identity) : List (Identity × α) → Option α
  | [] => none
  | (k', v) :: tl => if k = k' then some v else alookup k tl

/-- A `Variable` instance.  `addr` models the Python object identity (each
constructor call allocates a fresh address), so two results are the same
instance exactly when they are equal as `VarInstance` values. -/
structure VarInstance where
  addr : Nat
  uniqid : Nat
  names : List String
  indices : List Int
deriving DecidableEq

/-- The process-wide registry state: `VARIABLES` (of `var`), `_UNIQIDS` and
`_COUNT` (of `Variable.__init__`), plus the allocation counter for instance
addresses. -/
structure RegState where
  VARIABLES : List (Identity × VarInstance)
  UNIQIDS : List (Identity × Nat)
  COUNT : Nat
  nextAddr : Nat
deriving DecidableEq

/-- The state at process start: empty maps, `_COUNT = 1`. -/
def regInit : RegState := ⟨[], [], 1, 0⟩

/-- `Variable.__init__(names, indices)` from `src/boolean.py` (sequential
run): `uniqid = _UNIQIDS.get(key, _COUNT)`, and when it equals `_COUNT` the
counter is bumped and the id recorded. -/
def mkVariable (st : RegState) (names : List String) (indices : List Int) :
    VarInstance × RegState :=
  let u := (alookup (names, indices) st.UNIQIDS).getD st.COUNT
  let st1 :=
    if u = st.COUNT then
      { st with COUNT := st.COUNT + 1, UNIQIDS := st.UNIQIDS ++ [((names, indices), u)] }
    else st
  (⟨st.nextAddr, u, names, indices⟩, { st1 with nextAddr := st.nextAddr + 1 })

/-- The registry path of `var(name, index)` after successful validation:
return the memoized `Variable` for the identity, or construct and register a
new one. -/
def varReq (st : RegState) (k : Identity) : VarInstance × RegState :=
  match alookup k st.VARIABLES with
  | some v => (v, st)
  | none =>
    let p := mkVariable st k.1 k.2
    (p.1, { p.2 with VARIABLES := p.2.VARIABLES ++ [(k, p.1)] })

/-- A sequence of variable requests run against the registry. -/
def runList (st : RegState) (ks : List Identity) : RegState :=
  ks.foldl (fun s k => (varReq s k).2) st

/-- Registry invariant: the counter is at least 1, the recorded uniqids are
`1, 2, …, _COUNT - 1` in insertion (first-request) order, and `VARIABLES` and
`_UNIQIDS` agree on every identity. -/
def Inv (st : RegState) : Prop :=
  1 ≤ st.COUNT ∧
  st.UNIQIDS.map Prod.snd = List.range' 1 (st.COUNT - 1) ∧
  ∀ k : Identity, (alookup k st.VARIABLES).map VarInstance.uniqid = alookup k st.UNIQIDS

/-! ## Input validation of `var` (`src/boolean.py`) -/

/-- The Python error classes raised by the engine (the spec's
`InvalidIdentifier` taxonomy groups both). -/
inductive PyError where
  | typeError
  | valueError
deriving DecidableEq

/-- An element of a `name` tuple: a string, or a value of any other type. -/
inductive NameElem where
  | str (s : String)
  | notStr
deriving DecidableEq

/-- The `name` argument of `var`: a string, a tuple, or a value of any other
type. -/
inductive NameInput where
  | str (s : String)
  | tup (l : List NameElem)
  | other
deriving DecidableEq

/-- An element of an `index` tuple: an int, or a value of any other type. -/
inductive IndexElem where
  | int (i : Int)
  | notInt
deriving DecidableEq

/-- The `index` argument of `var`: omitted (`None`), an int, a tuple, or a
value of any other type. -/
inductive IndexInput where
  | none
  | int (i : Int)
  | tup (l : List IndexElem)
  | other
deriving DecidableEq

/-- The name-checking loop of `var`: `TypeError` at the first non-string
element. -/
def checkNames : List NameElem → Except PyError (List String)
  | [] => .ok []
  | .notStr :: _ => .error .typeError
  | .str s :: tl => (checkNames tl).map (s :: ·)

/-- The index-checking loop of `var`: per element, `TypeError` for a non-int,
then `ValueError` for a negative int. -/
def checkIndices : List IndexElem → Except PyError (List Int)
  | [] => .ok []
  | .notInt :: _ => .error .typeError
  | .int i :: tl => if i < 0 then .error .valueError else (checkIndices tl).map (i :: ·)

/-- The validation prefix of `var(name, index)` from `src/boolean.py`, in
source order: name must be a str or tuple (`TypeError`), names must be
non-empty (`ValueError`), every name a str (`TypeError`); index must be
omitted, an int or a tuple (`TypeError`), every index an int (`TypeError`)
and non-negative (`ValueError`). -/
def validateVar (nm : NameInput) (ix : IndexInput) : Except PyError Identity :=
  match nm with
  | .other => .error .typeError
  | .str s =>
    match checkNames [.str s] with
    | .error e => .error e
    | .ok names => validateIndex names ix
  | .tup l =>
    if l = [] then .error .valueError
    else
      match checkNames l with
      | .error e => .error e
      | .ok names => validateIndex names ix
where
  /-- The index half of the validation. -/
  validateIndex (names : List String) (ix : IndexInput) : Except PyError Identity :=
    match ix with
    | .other => .error .typeError
    | .none => .ok (names, [])
    | .int i =>
      match checkIndices [.int i] with
      | .error e => .error e
      | .ok indices => .ok (names, indices)
    | .tup l =>
      match checkIndices l with
      | .error e => .error e
      | .ok indices => .ok (names, indices)

/-- `var(name, index)` from `src/boolean.py`: validate, then resolve through
the registry; on a validation error the registry state is untouched. -/
def var (st : RegState) (nm : NameInput) (ix : IndexInput) :
    Except PyError VarInstance × RegState :=
  match validateVar nm ix with
  | .error e => (.error e, st)
  | .ok k => (.ok (varReq st k).1, (varReq st k).2)

/-- True when an `Except` is an error. -/
def isErr {ε α : Type} : Except ε α → Bool
  | .error _ => true
  | .ok _ => false

/-- Modelled from the spec sentence of the claim: the inputs for which
variable resolution is said to fail — the names sequence is empty, a name is
not a string, an index is negative, or the name/index argument has the wrong
type.  This restates the claim's words, to be compared with the code-derived
`var`. -/
def badInput (nm : NameInput) (ix : IndexInput) : Bool :=
  (match nm with
   | .other => true
   | .str _ => false
   | .tup l => l.isEmpty || l.any (fun e => match e with | .notStr => true | _ => false)) ||
  (match ix with
   | .other => true
   | .none => false
   | .int i => decide (i < 0)
   | .tup l =>
     l.any (fun e => match e with | .notInt => true | _ => false) ||
     l.any (fun e => match e with | .int i => decide (i < 0) | _ => false))

/-! ## The `box` coercion and `BDDConstant.__bool__` (`src/obdd.py`) -/

/-- A Python value passed to `box`: a diagram, an int, a string, a bool, or
anything else (the representative universe of the coercion's callers). -/
inductive PyVal where
  | diagram (d : OrderedBinaryDecisionDiagram)
  | int (n : Int)
  | str (s : String)
  | bool (b : Bool)
  | other
deriving DecidableEq

/-- Python `==` against the int literals 0 and 1, as evaluated by
`obj in (0, "0")` / `obj in (1, "1")`: ints compare numerically, bools are
ints (`False == 0`, `True == 1`), everything else is unequal. -/
def pyEqInt (v : PyVal) (n : Int) : Bool :=
  match v with
  | .int m => decide (m = n)
  | .bool b => decide ((if b then (1 : Int) else 0) = n)
  | _ => false

/-- Python `==` against the string literals in `obj in (0, "0")`. -/
def pyEqStr (v : PyVal) (s : String) : Bool :=
  match v with
  | .str t => decide (t = s)
  | _ => false

/-- `OrderedBinaryDecisionDiagram.box(obj)` from `src/obdd.py`.  The fallback
branch executes `boolean(obj)`, but `boolean` is the imported module object
(`import boolean`), which is not callable, so the branch always raises
`TypeError`. -/
def box (v : PyVal) : Except PyError OrderedBinaryDecisionDiagram :=
  match v with
  | .diagram d => .ok d
  | v =>
    if pyEqInt v 0 || pyEqStr v "0" then .ok BDDZERO
    else if pyEqInt v 1 || pyEqStr v "1" then .ok BDDONE
    else .error .typeError

/-- Whether a `PyVal` is a diagram. -/
def isDiagramVal : PyVal → Bool
  | .diagram _ => true
  | _ => false

/-- Whether a `PyVal` is a bool. -/
def isBoolVal : PyVal → Bool
  | .bool _ => true
  | _ => false

/-- `BDDConstant.__bool__` from `src/obdd.py`: `return boolean(self.value)`,
where `boolean` is again the imported module, so the call always raises
`TypeError` instead of returning the constant's truth value. -/
def bddConstantBool (value : Int) : Except PyError Bool :=
  match value with
  | _ => .error .typeError

/-! ## The unsynchronized id allocation (`Variable.__init__`) under
interleaving

`Variable.__init__` wraps its body in `with threading.Lock():` — but the lock
is constructed fresh on every call, so no two calls ever contend for the same
lock and the body is effectively unguarded.  The body is modelled as two
atomic steps (the read of `_UNIQIDS.get(key, _COUNT)`, and the conditional
increment-and-insert), which concurrent calls may therefore interleave. -/

/-- The shared state touched by `Variable.__init__`: `_UNIQIDS` and
`_COUNT`. -/
structure CState where
  UNIQIDS : List (Identity × Nat)
  COUNT : Nat
deriving DecidableEq

/-- First step of `Variable.__init__`:
`self.uniqid = _UNIQIDS.get((names, indices), _COUNT)`. -/
def stepRead (st : CState) (k : Identity) : Nat :=
  (alookup k st.UNIQIDS).getD st.COUNT

/-- Second step of `Variable.__init__`: `if self.uniqid == _COUNT: _COUNT += 1;
_UNIQIDS[(names, indices)] = self.uniqid`. -/
def stepWrite (st : CState) (k : Identity) (u : Nat) : CState :=
  if u = st.COUNT then ⟨st.UNIQIDS ++ [(k, u)], st.COUNT + 1⟩ else st

/-- Identity `a` requested by the two racing threads. -/
def idA : Identity := (["a"], [])

/-- Identity `b` requested by the interfering thread. -/
def idB : Identity := (["b"], [])

/-- The initial shared state (`_UNIQIDS = {}`, `_COUNT = 1`). -/
def cInit : CState := ⟨[], 1⟩

/-- Thread 1 reads for identity `a` and is then preempted. -/
def raceU1 : Nat := stepRead cInit idA

/-- Thread 2 runs `Variable.__init__` to completion for identity `b`. -/
def raceSt2 : CState := stepWrite cInit idB (stepRead cInit idB)

/-- Thread 3 then runs `Variable.__init__` to completion for identity `a`. -/
def raceU3 : Nat := stepRead raceSt2 idA

/-- The state after thread 3's write. -/
def raceSt3 : CState := stepWrite raceSt2 idA raceU3

/-- Thread 1 finally resumes and performs its conditional write. -/
def raceSt4 : CState := stepWrite raceSt3 idA raceU1

/-! ## Basic lemmas about the Node Store, negation and restriction -/

theorem vars_obddnode_subset (r : Nat) (lo hi : N) :
    vars (_obddnode r lo hi) ⊆ insert r (vars lo ∪ vars hi) := by
  unfold _obddnode
  split
  · intro x hx
    exact Finset.mem_insert_of_mem (Finset.mem_union_left _ hx)
  · intro x hx
    exact hx

theorem evalN_obddnode (r : Nat) (lo hi : N) (env : Nat → Bool) :
    evalN (_obddnode r lo hi) env = if env r then evalN hi env else evalN lo env := by
  unfold _obddnode
  split
  · rename_i h
    subst h
    cases env r <;> simp [evalN]
  · rfl

theorem wfLB_node_iff (m r : Nat) (lo hi : N) :
    wfLB m (N.node r lo hi) = true ↔
      m < r ∧ lo ≠ hi ∧ wfLB r lo = true ∧ wfLB r hi = true := by
  simp [wfLB, Bool.and_eq_true, decide_eq_true_iff, and_assoc]

theorem wfLB_mono {m' m : Nat} {n : N} (hle : m' ≤ m) (h : wfLB m n = true) :
    wfLB m' n = true := by
  cases n with
  | zero => rfl
  | one => rfl
  | node r lo hi =>
    rw [wfLB_node_iff] at h ⊢
    exact ⟨lt_of_le_of_lt hle h.1, h.2⟩

theorem wfLB_vars {m : Nat} {n : N} (h : wfLB m n = true) :
    ∀ x ∈ vars n, m < x := by
  induction n generalizing m with
  | zero => intro x hx; simp [vars] at hx
  | one => intro x hx; simp [vars] at hx
  | node r lo hi ihlo ihhi =>
    rw [wfLB_node_iff] at h
    intro x hx
    simp only [vars, Finset.mem_insert, Finset.mem_union] at hx
    rcases hx with rfl | hx | hx
    · exact h.1
    · exact lt_trans h.1 (ihlo h.2.2.1 x hx)
    · exact lt_trans h.1 (ihhi h.2.2.2 x hx)

theorem wfLB_of_wf_lt {m : Nat} {n : N} (h : wf n = true)
    (hv : ∀ x ∈ vars n, m < x) : wfLB m n = true := by
  cases n with
  | zero => rfl
  | one => rfl
  | node r lo hi =>
    rw [wf, wfLB_node_iff] at h
    rw [wfLB_node_iff]
    exact ⟨hv r (by simp [vars]), h.2⟩

theorem wfLB_obddnode {m r : Nat} {lo hi : N} (hmr : m < r)
    (hlo : wfLB r lo = true) (hhi : wfLB r hi = true) :
    wfLB m (_obddnode r lo hi) = true := by
  unfold _obddnode
  split
  · exact wfLB_mono (le_of_lt hmr) hlo
  · rename_i hne
    rw [wfLB_node_iff]
    exact ⟨hmr, hne, hlo, hhi⟩

theorem evalN_neg (n : N) (env : Nat → Bool) :
    evalN (_neg n) env = !(evalN n env) := by
  induction n with
  | zero => rfl
  | one => rfl
  | node r lo hi ihlo ihhi =>
    rw [_neg, evalN_obddnode]
    simp only [evalN]
    cases env r <;> simp [ihlo, ihhi]

theorem vars_neg_subset (n : N) : vars (_neg n) ⊆ vars n := by
  induction n with
  | zero => simp [_neg, vars]
  | one => simp [_neg, vars]
  | node r lo hi ihlo ihhi =>
    rw [_neg]
    refine (vars_obddnode_subset _ _ _).trans ?_
    simp only [vars]
    intro x hx
    simp only [Finset.mem_insert, Finset.mem_union] at hx ⊢
    rcases hx with rfl | hx | hx
    · exact Or.inl rfl
    · exact Or.inr (Or.inl (ihlo hx))
    · exact Or.inr (Or.inr (ihhi hx))

theorem wfLB_neg {m : Nat} {n : N} (h : wfLB m n = true) :
    wfLB m (_neg n) = true := by
  induction n generalizing m with
  | zero => rfl
  | one => rfl
  | node r lo hi ihlo ihhi =>
    rw [wfLB_node_iff] at h
    rw [_neg]
    exact wfLB_obddnode h.1 (ihlo h.2.2.1) (ihhi h.2.2.2)

theorem evalN_restrict (pt : Nat → Option Bool) (n : N) (env : Nat → Bool) :
    evalN (_restrict pt n) env = evalN n (ov pt env) := by
  induction n with
  | zero => rfl
  | one => rfl
  | node r lo hi ihlo ihhi =>
    rw [_restrict]
    rcases hpt : pt r with _ | b
    · rw [evalN_obddnode]
      simp only [evalN, ov, hpt, Option.getD_none, ihlo, ihhi]
    · cases b <;> simp only [evalN, ov, hpt, Option.getD_some, ihlo, ihhi] <;> rfl

theorem vars_restrict_subset (pt : Nat → Option Bool) (n : N) :
    vars (_restrict pt n) ⊆ vars n := by
  induction n with
  | zero => simp [_restrict]
  | one => simp [_restrict]
  | node r lo hi ihlo ihhi =>
    rw [_restrict]
    have hsublo : vars lo ⊆ vars (N.node r lo hi) := by
      simp only [vars]
      intro x hx
      exact Finset.mem_insert_of_mem (Finset.mem_union_left _ hx)
    have hsubhi : vars hi ⊆ vars (N.node r lo hi) := by
      simp only [vars]
      intro x hx
      exact Finset.mem_insert_of_mem (Finset.mem_union_right _ hx)
    rcases hpt : pt r with _ | b
    · refine (vars_obddnode_subset _ _ _).trans ?_
      simp only [vars]
      intro x hx
      simp only [Finset.mem_insert, Finset.mem_union] at hx ⊢
      rcases hx with rfl | hx | hx
      · exact Or.inl rfl
      · exact Or.inr (Or.inl (ihlo hx))
      · exact Or.inr (Or.inr (ihhi hx))
    · cases b
      · exact ihlo.trans hsublo
      · exact ihhi.trans hsubhi

theorem mem_vars_restrict {pt : Nat → Option Bool} {n : N} {x : Nat}
    (hx : x ∈ vars (_restrict pt n)) : pt x = none := by
  induction n with
  | zero => simp [_restrict, vars] at hx
  | one => simp [_restrict, vars] at hx
  | node r lo hi ihlo ihhi =>
    rw [_restrict] at hx
    rcases hpt : pt r with _ | b
    · rw [hpt] at hx
      have := vars_obddnode_subset r (_restrict pt lo) (_restrict pt hi) hx
      simp only [Finset.mem_insert, Finset.mem_union] at this
      rcases this with rfl | h | h
      · exact hpt
      · exact ihlo h
      · exact ihhi h
    · rw [hpt] at hx
      cases b
      · exact ihlo hx
      · exact ihhi hx

theorem vars_restrict_single (r : Nat) (b : Bool) (n : N) :
    vars (_restrict (single r b) n) ⊆ (vars n).erase r := by
  intro x hx
  rw [Finset.mem_erase]
  refine ⟨?_, vars_restrict_subset _ _ hx⟩
  intro hxr
  have := mem_vars_restrict hx
  rw [hxr] at this
  simp [single] at this

theorem wfLB_restrict {pt : Nat → Option Bool} {m : Nat} {n : N}
    (h : wfLB m n = true) : wfLB m (_restrict pt n) = true := by
  induction n generalizing m with
  | zero => rfl
  | one => rfl
  | node r lo hi ihlo ihhi =>
    rw [wfLB_node_iff] at h
    rw [_restrict]
    rcases pt r with _ | b
    · exact wfLB_obddnode h.1 (ihlo h.2.2.1) (ihhi h.2.2.2)
    · cases b
      · exact wfLB_mono (le_of_lt h.1) (ihlo h.2.2.1)
      · exact wfLB_mono (le_of_lt h.1) (ihhi h.2.2.2)

theorem restrict_id {pt : Nat → Option Bool} {n : N} (h : wf n = true)
    (hdom : ∀ y ∈ vars n, pt y = none) : _restrict pt n = n := by
  induction n with
  | zero => rfl
  | one => rfl
  | node r lo hi ihlo ihhi =>
    rw [wf, wfLB_node_iff] at h
    have hr : pt r = none := hdom r (by simp [vars])
    have hlo : _restrict pt lo = lo :=
      ihlo (wfLB_mono (Nat.zero_le r) h.2.2.1) fun y hy =>
        hdom y (by simp only [vars, Finset.mem_insert, Finset.mem_union]; exact Or.inr (Or.inl hy))
    have hhi : _restrict pt hi = hi :=
      ihhi (wfLB_mono (Nat.zero_le r) h.2.2.2) fun y hy =>
        hdom y (by simp only [vars, Finset.mem_insert, Finset.mem_union]; exact Or.inr (Or.inr hy))
    rw [_restrict, hr, hlo, hhi, _obddnode, if_neg h.2.1]

theorem ov_single (r : Nat) (b : Bool) (env : Nat → Bool) :
    ov (single r b) env = upd env r b := by
  funext x
  by_cases hx : x = r <;> simp [ov, single, upd, hx]

theorem upd_eq_self {env : Nat → Bool} {x : Nat} {b : Bool} (h : env x = b) :
    upd env x b = env := by
  funext y
  by_cases hy : y = x <;> simp [upd, hy, h.symm]

theorem evalN_indep {n : N} {x : Nat} (hx : x ∉ vars n) (env : Nat → Bool) (b : Bool) :
    evalN n (upd env x b) = evalN n env := by
  induction n with
  | zero => rfl
  | one => rfl
  | node r lo hi ihlo ihhi =>
    simp only [vars, Finset.mem_insert, Finset.mem_union, not_or] at hx
    have hr : upd env x b r = env r := by
      show (if r = x then b else env r) = env r
      rw [if_neg fun h => hx.1 h.symm]
    simp only [evalN, hr, ihlo hx.2.1, ihhi hx.2.2]

theorem upd_comm {env : Nat → Bool} {x y : Nat} (hxy : x ≠ y) (b c : Bool) :
    upd (upd env x b) y c = upd (upd env y c) x b := by
  funext z
  by_cases hz : z = y <;> by_cases hz' : z = x <;>
    simp_all [upd]

theorem nat_min_choice (x y : Nat) : Nat.min x y = x ∨ Nat.min x y = y := by
  rcases Nat.le_total x y with h | h
  · exact Or.inl (Nat.min_eq_left h)
  · exact Or.inr (Nat.min_eq_right h)

theorem foldl_min_mem (xs : List Nat) (x : Nat) : xs.foldl Nat.min x ∈ x :: xs := by
  induction xs generalizing x with
  | nil => simp
  | cons y ys ih =>
    rw [List.foldl_cons]
    rcases List.mem_cons.mp (ih (Nat.min x y)) with h | h
    · rw [h]
      rcases nat_min_choice x y with hm | hm <;> rw [hm]
      · exact List.mem_cons.mpr (Or.inl rfl)
      · exact List.mem_cons.mpr (Or.inr (List.mem_cons.mpr (Or.inl rfl)))
    · exact List.mem_cons.mpr (Or.inr (List.mem_cons.mpr (Or.inr h)))

theorem foldl_min_le_init (xs : List Nat) (x : Nat) : xs.foldl Nat.min x ≤ x := by
  induction xs generalizing x with
  | nil => exact le_refl x
  | cons y ys ih =>
    rw [List.foldl_cons]
    exact le_trans (ih (Nat.min x y)) (Nat.min_le_left x y)

theorem foldl_min_le_mem (xs : List Nat) (x z : Nat) (hz : z ∈ xs) :
    xs.foldl Nat.min x ≤ z := by
  induction xs generalizing x with
  | nil => simp at hz
  | cons y ys ih =>
    rw [List.foldl_cons]
    rcases List.mem_cons.mp hz with rfl | h
    · exact le_trans (foldl_min_le_init ys (Nat.min x z)) (Nat.min_le_right x z)
    · exact ih (Nat.min x y) h

theorem listMin_mem {l : List Nat} {r : Nat} (h : listMin l = some r) : r ∈ l := by
  cases l with
  | nil => simp [listMin] at h
  | cons x xs =>
    rw [listMin, Option.some_inj] at h
    rw [← h]
    exact foldl_min_mem xs x

theorem listMin_le {l : List Nat} {r : Nat} (h : listMin l = some r) :
    ∀ y ∈ l, r ≤ y := by
  cases l with
  | nil => simp [listMin] at h
  | cons x xs =>
    rw [listMin, Option.some_inj] at h
    intro y hy
    rw [← h]
    rcases List.mem_cons.mp hy with rfl | hy
    · exact foldl_min_le_init xs y
    · exact foldl_min_le_mem xs x y hy

theorem listMin_cons (x : Nat) (xs : List Nat) : (listMin (x :: xs)).isSome := by
  simp [listMin]

theorem mem_topRoots {l : List N} {x : Nat} :
    x ∈ topRoots l ↔ ∃ n ∈ l, (∃ lo hi, n = N.node x lo hi) ∧ 0 < x := by
  simp only [topRoots, List.mem_filterMap]
  constructor
  · rintro ⟨n, hn, hf⟩
    cases n with
    | zero => simp at hf
    | one => simp at hf
    | node r lo hi =>
      by_cases hr : 0 < r
      · simp only [if_pos hr, Option.some_inj] at hf
        subst hf
        exact ⟨N.node r lo hi, hn, ⟨lo, hi, rfl⟩, hr⟩
      · simp [if_neg hr] at hf
  · rintro ⟨n, hn, ⟨lo, hi, rfl⟩, hx⟩
    exact ⟨N.node x lo hi, hn, by simp [if_pos hx]⟩

/-! ## Lemmas about the ITE engine -/

theorem listMin_topRoots_mem {f g h : N} {r : Nat}
    (hr : listMin (topRoots [f, g, h]) = some r) :
    0 < r ∧ r ∈ vars f ∪ vars g ∪ vars h := by
  have hmem := listMin_mem hr
  rw [mem_topRoots] at hmem
  obtain ⟨n, hn, ⟨lo, hi, rfl⟩, hpos⟩ := hmem
  refine ⟨hpos, ?_⟩
  have hrn : r ∈ vars (N.node r lo hi) := by simp [vars]
  simp only [List.mem_cons, List.not_mem_nil, or_false] at hn
  rcases hn with rfl | rfl | rfl
  · exact Finset.mem_union_left _ (Finset.mem_union_left _ hrn)
  · exact Finset.mem_union_left _ (Finset.mem_union_right _ hrn)
  · exact Finset.mem_union_right _ hrn

theorem wf_node_vars_le {t : Nat} {lo hi : N} {x : Nat}
    (h : wf (N.node t lo hi) = true) (hx : x ∈ vars (N.node t lo hi)) : t ≤ x := by
  rw [wf, wfLB_node_iff] at h
  simp only [vars, Finset.mem_insert, Finset.mem_union] at hx
  rcases hx with rfl | hx | hx
  · exact le_refl x
  · exact le_of_lt (wfLB_vars h.2.2.1 x hx)
  · exact le_of_lt (wfLB_vars h.2.2.2 x hx)

theorem le_vars_of_listMin {f g h : N} {r : Nat}
    (hr : listMin (topRoots [f, g, h]) = some r)
    (hf : wf f = true) (hg : wf g = true) (hh : wf h = true) :
    ∀ x ∈ vars f ∪ vars g ∪ vars h, r ≤ x := by
  intro x hx
  have hle := listMin_le hr
  have step : ∀ n : N, n ∈ [f, g, h] → wf n = true → x ∈ vars n → r ≤ x := by
    intro n hn hwf hxn
    cases n with
    | zero => simp [vars] at hxn
    | one => simp [vars] at hxn
    | node t lo hi =>
      have ht : 0 < t := by
        rw [wf, wfLB_node_iff] at hwf
        exact Nat.lt_of_le_of_lt (Nat.zero_le _) hwf.1
      have htr : t ∈ topRoots [f, g, h] :=
        mem_topRoots.mpr ⟨N.node t lo hi, hn, ⟨lo, hi, rfl⟩, ht⟩
      exact le_trans (hle t htr) (wf_node_vars_le hwf hxn)
  simp only [Finset.mem_union] at hx
  rcases hx with (hx | hx) | hx
  · exact step f (by simp) hf hx
  · exact step g (by simp) hg hx
  · exact step h (by simp) hh hx

theorem iteF_measure_lt {f g h : N} {r : Nat}
    (hr : listMin (topRoots [f, g, h]) = some r) (b : Bool) :
    (vars (_restrict (single r b) f) ∪ vars (_restrict (single r b) g) ∪
        vars (_restrict (single r b) h)).card <
      (vars f ∪ vars g ∪ vars h).card := by
  obtain ⟨-, hmem⟩ := listMin_topRoots_mem hr
  have hsub : vars (_restrict (single r b) f) ∪ vars (_restrict (single r b) g) ∪
      vars (_restrict (single r b) h) ⊆ (vars f ∪ vars g ∪ vars h).erase r := by
    intro x hx
    simp only [Finset.mem_union] at hx
    rw [Finset.erase_union_distrib, Finset.erase_union_distrib, Finset.mem_union,
      Finset.mem_union]
    rcases hx with (hx | hx) | hx
    · exact Or.inl (Or.inl (vars_restrict_single r b f hx))
    · exact Or.inl (Or.inr (vars_restrict_single r b g hx))
    · exact Or.inr (vars_restrict_single r b h hx)
  calc (vars (_restrict (single r b) f) ∪ vars (_restrict (single r b) g) ∪
      vars (_restrict (single r b) h)).card
      ≤ ((vars f ∪ vars g ∪ vars h).erase r).card := Finset.card_le_card hsub
    _ < (vars f ∪ vars g ∪ vars h).card :=
        Finset.card_lt_card (Finset.erase_ssubset hmem)

theorem vars_iteF_subset : ∀ (k : Nat) (f g h : N),
    vars (_iteF k f g h) ⊆ vars f ∪ vars g ∪ vars h := by
  intro k
  induction k with
  | zero => intro f g h; simp [_iteF, vars]
  | succ k ih =>
    intro f g h
    simp only [_iteF]
    split_ifs with hc1 hc2 hc3 hc4 hc5
    · exact fun x hx => Finset.mem_union_left _ (Finset.mem_union_left _ hx)
    · exact fun x hx =>
        Finset.mem_union_left _ (Finset.mem_union_left _ (vars_neg_subset f hx))
    · exact fun x hx => Finset.mem_union_left _ (Finset.mem_union_right _ hx)
    · exact fun x hx => Finset.mem_union_right _ hx
    · exact fun x hx => Finset.mem_union_left _ (Finset.mem_union_right _ hx)
    · cases hmin : listMin (topRoots [f, g, h]) with
      | none => simp [vars]
      | some r =>
        obtain ⟨-, hrmem⟩ := listMin_topRoots_mem hmin
        refine (vars_obddnode_subset _ _ _).trans ?_
        intro x hx
        simp only [Finset.mem_insert, Finset.mem_union] at hx
        rcases hx with rfl | hx | hx
        · exact hrmem
        · have := ih _ _ _ hx
          simp only [Finset.mem_union] at this
          rcases this with (hv | hv) | hv
          · exact Finset.mem_union_left _
              (Finset.mem_union_left _ (vars_restrict_subset _ f hv))
          · exact Finset.mem_union_left _
              (Finset.mem_union_right _ (vars_restrict_subset _ g hv))
          · exact Finset.mem_union_right _ (vars_restrict_subset _ h hv)
        · have := ih _ _ _ hx
          simp only [Finset.mem_union] at this
          rcases this with (hv | hv) | hv
          · exact Finset.mem_union_left _
              (Finset.mem_union_left _ (vars_restrict_subset _ f hv))
          · exact Finset.mem_union_left _
              (Finset.mem_union_right _ (vars_restrict_subset _ g hv))
          · exact Finset.mem_union_right _ (vars_restrict_subset _ h hv)

theorem iteF_fuel_irrel : ∀ (k1 k2 : Nat) (f g h : N),
    (vars f ∪ vars g ∪ vars h).card < k1 → (vars f ∪ vars g ∪ vars h).card < k2 →
    _iteF k1 f g h = _iteF k2 f g h := by
  intro k1
  induction k1 with
  | zero => intro k2 f g h h1; exact absurd h1 (Nat.not_lt_zero _)
  | succ k1 ih =>
    intro k2 f g h h1 h2
    cases k2 with
    | zero => exact absurd h2 (Nat.not_lt_zero _)
    | succ k2 =>
      simp only [_iteF]
      split_ifs
      · rfl
      · rfl
      · rfl
      · rfl
      · rfl
      · split
        · rfl
        · rename_i r hmin
          have hd0 := iteF_measure_lt hmin false
          have hd1 := iteF_measure_lt hmin true
          rw [ih k2 _ _ _ (Nat.lt_of_lt_of_le hd0 (Nat.lt_succ_iff.mp h1))
              (Nat.lt_of_lt_of_le hd0 (Nat.lt_succ_iff.mp h2)),
            ih k2 _ _ _ (Nat.lt_of_lt_of_le hd1 (Nat.lt_succ_iff.mp h1))
              (Nat.lt_of_lt_of_le hd1 (Nat.lt_succ_iff.mp h2))]

/-- The fueled definition satisfies exactly the source recursion of `_ite`:
the five ordered shortcut cases, then Shannon expansion on the smallest
positive root with the two recursive calls rebuilt through the Node Store. -/
theorem ite_eq_unfold (f g h : N) : _ite f g h =
    if g = N.one ∧ h = N.zero then f
    else if g = N.zero ∧ h = N.one then _neg f
    else if f = N.one then g
    else if f = N.zero then h
    else if g = h then g
    else
      match listMin (topRoots [f, g, h]) with
      | none => N.zero
      | some r =>
          _obddnode r
            (_ite (_restrict (single r false) f) (_restrict (single r false) g)
              (_restrict (single r false) h))
            (_ite (_restrict (single r true) f) (_restrict (single r true) g)
              (_restrict (single r true) h)) := by
  show _iteF ((vars f ∪ vars g ∪ vars h).card + 1) f g h = _
  simp only [_iteF]
  split_ifs
  · rfl
  · rfl
  · rfl
  · rfl
  · rfl
  · split
    · rfl
    · rename_i r hmin
      have hd0 := iteF_measure_lt hmin false
      have hd1 := iteF_measure_lt hmin true
      rw [iteF_fuel_irrel _ _ _ _ _ hd0 (Nat.lt_succ_self _),
        iteF_fuel_irrel _ _ _ _ _ hd1 (Nat.lt_succ_self _)]
      rfl

theorem ite_one_zero (f : N) : _ite f N.one N.zero = f := by
  rw [ite_eq_unfold]
  simp

theorem ite_zero_one (f : N) : _ite f N.zero N.one = _neg f := by
  rw [ite_eq_unfold]
  simp

theorem ite_true_arg (g h : N) : _ite N.one g h = g := by
  rw [ite_eq_unfold]
  by_cases hc1 : g = N.one ∧ h = N.zero
  · rw [if_pos hc1]
    exact hc1.1.symm
  · rw [if_neg hc1]
    by_cases hc2 : g = N.zero ∧ h = N.one
    · rw [if_pos hc2, hc2.1]
      rfl
    · rw [if_neg hc2, if_pos rfl]

theorem ite_false_arg (g h : N) : _ite N.zero g h = h := by
  rw [ite_eq_unfold]
  by_cases hc1 : g = N.one ∧ h = N.zero
  · rw [if_pos hc1]
    exact hc1.2.symm
  · rw [if_neg hc1]
    by_cases hc2 : g = N.zero ∧ h = N.one
    · rw [if_pos hc2, hc2.2]
      rfl
    · rw [if_neg hc2, if_neg (fun hh => N.noConfusion hh), if_pos rfl]

theorem ite_same (f g : N) : _ite f g g = g := by
  rw [ite_eq_unfold]
  by_cases hc1 : g = N.one ∧ g = N.zero
  · obtain ⟨h1, h2⟩ := hc1
    rw [h1] at h2
    exact absurd h2 (fun hh => N.noConfusion hh)
  · rw [if_neg hc1]
    by_cases hc2 : g = N.zero ∧ g = N.one
    · obtain ⟨h1, h2⟩ := hc2
      rw [h1] at h2
      exact absurd h2 (fun hh => N.noConfusion hh)
    · rw [if_neg hc2]
      by_cases hc3 : f = N.one
      · rw [if_pos hc3]
      · rw [if_neg hc3]
        by_cases hc4 : f = N.zero
        · rw [if_pos hc4]
        · rw [if_neg hc4, if_pos rfl]

theorem wf_iteF : ∀ (k : Nat) {f g h : N}, wf f = true → wf g = true →
    wf h = true → wf (_iteF k f g h) = true := by
  intro k
  induction k with
  | zero => intro f g h _ _ _; rfl
  | succ k ih =>
    intro f g h hf hg hh
    simp only [_iteF]
    split_ifs
    · exact hf
    · exact wfLB_neg hf
    · exact hg
    · exact hh
    · exact hg
    · cases hmin : listMin (topRoots [f, g, h]) with
      | none => rfl
      | some r =>
        obtain ⟨hrpos, -⟩ := listMin_topRoots_mem hmin
        have hrec : ∀ b : Bool, wfLB r (_iteF k (_restrict (single r b) f)
            (_restrict (single r b) g) (_restrict (single r b) h)) = true := by
          intro b
          have hwfi : wf (_iteF k (_restrict (single r b) f) (_restrict (single r b) g)
              (_restrict (single r b) h)) = true :=
            ih (wfLB_restrict hf) (wfLB_restrict hg) (wfLB_restrict hh)
          refine wfLB_of_wf_lt hwfi ?_
          intro x hx
          have hx' := vars_iteF_subset k _ _ _ hx
          have hxe : x ∈ (vars f ∪ vars g ∪ vars h).erase r := by
            simp only [Finset.mem_union] at hx'
            rw [Finset.erase_union_distrib, Finset.erase_union_distrib,
              Finset.mem_union, Finset.mem_union]
            rcases hx' with (hv | hv) | hv
            · exact Or.inl (Or.inl (vars_restrict_single r b f hv))
            · exact Or.inl (Or.inr (vars_restrict_single r b g hv))
            · exact Or.inr (vars_restrict_single r b h hv)
          rw [Finset.mem_erase] at hxe
          exact lt_of_le_of_ne (le_vars_of_listMin hmin hf hg hh x hxe.2) (Ne.symm hxe.1)
        exact wfLB_obddnode hrpos (hrec false) (hrec true)

theorem evalN_iteF : ∀ (k : Nat) {f g h : N} (env : Nat → Bool),
    (vars f ∪ vars g ∪ vars h).card < k → wf f = true → wf g = true → wf h = true →
    evalN (_iteF k f g h) env =
      if evalN f env then evalN g env else evalN h env := by
  intro k
  induction k with
  | zero => intro f g h env h1; exact absurd h1 (Nat.not_lt_zero _)
  | succ k ih =>
    intro f g h env hk hf hg hh
    simp only [_iteF]
    by_cases hc1 : g = N.one ∧ h = N.zero
    · rw [if_pos hc1]
      obtain ⟨rfl, rfl⟩ := hc1
      cases hfe : evalN f env <;> simp [evalN, hfe]
    · rw [if_neg hc1]
      by_cases hc2 : g = N.zero ∧ h = N.one
      · rw [if_pos hc2]
        obtain ⟨rfl, rfl⟩ := hc2
        rw [evalN_neg]
        cases hfe : evalN f env <;> simp [evalN, hfe]
      · rw [if_neg hc2]
        by_cases hc3 : f = N.one
        · rw [if_pos hc3]
          subst hc3
          simp [evalN]
        · rw [if_neg hc3]
          by_cases hc4 : f = N.zero
          · rw [if_pos hc4]
            subst hc4
            simp [evalN]
          · rw [if_neg hc4]
            by_cases hc5 : g = h
            · rw [if_pos hc5]
              subst hc5
              cases hfe : evalN f env <;> simp [hfe]
            · rw [if_neg hc5]
              split
              · rename_i hmin
                exfalso
                have hfnode : ∃ r0 lo hi, f = N.node r0 lo hi := by
                  cases f with
                  | zero => exact absurd rfl hc4
                  | one => exact absurd rfl hc3
                  | node r0 lo hi => exact ⟨r0, lo, hi, rfl⟩
                obtain ⟨r0, lo, hi, rfl⟩ := hfnode
                have hr0 : 0 < r0 := by
                  rw [wf, wfLB_node_iff] at hf
                  exact Nat.lt_of_le_of_lt (Nat.zero_le _) hf.1
                have hmem : r0 ∈ topRoots [N.node r0 lo hi, g, h] :=
                  mem_topRoots.mpr ⟨N.node r0 lo hi, by simp, ⟨lo, hi, rfl⟩, hr0⟩
                cases htr : topRoots [N.node r0 lo hi, g, h] with
                | nil => rw [htr] at hmem; simp at hmem
                | cons a as =>
                  rw [htr] at hmin
                  have hs := listMin_cons a as
                  rw [hmin] at hs
                  simp at hs
              · rename_i r hmin
                rw [evalN_obddnode]
                have hk' : (vars f ∪ vars g ∪ vars h).card ≤ k := Nat.lt_succ_iff.mp hk
                have hrec : ∀ b : Bool,
                    evalN (_iteF k (_restrict (single r b) f) (_restrict (single r b) g)
                      (_restrict (single r b) h)) env =
                    if evalN f (upd env r b) then evalN g (upd env r b)
                    else evalN h (upd env r b) := by
                  intro b
                  rw [ih env (Nat.lt_of_lt_of_le (iteF_measure_lt hmin b) hk')
                    (wfLB_restrict hf) (wfLB_restrict hg) (wfLB_restrict hh)]
                  rw [evalN_restrict, evalN_restrict, evalN_restrict, ov_single]
                cases henv : env r
                · rw [hrec false, upd_eq_self henv]
                  simp
                · rw [hrec true, upd_eq_self henv]
                  simp

theorem wf_ite {f g h : N} (hf : wf f = true) (hg : wf g = true)
    (hh : wf h = true) : wf (_ite f g h) = true :=
  wf_iteF _ hf hg hh

theorem evalN_ite {f g h : N} (env : Nat → Bool) (hf : wf f = true)
    (hg : wf g = true) (hh : wf h = true) :
    evalN (_ite f g h) env = if evalN f env then evalN g env else evalN h env :=
  evalN_iteF _ env (Nat.lt_succ_self _) hf hg hh

theorem vars_ite_subset (f g h : N) :
    vars (_ite f g h) ⊆ vars f ∪ vars g ∪ vars h :=
  vars_iteF_subset _ f g h

/-! ## Canonicity: well-formed nodes are in bijection with Boolean functions -/

theorem sizeN_pos (n : N) : 1 ≤ sizeN n := by
  cases n with
  | zero => exact le_refl 1
  | one => exact le_refl 1
  | node r lo hi => exact Nat.le_add_left 1 _

theorem wf_node_parts {r : Nat} {lo hi : N} (h : wf (N.node r lo hi) = true) :
    wf lo = true ∧ wf hi = true ∧ lo ≠ hi := by
  rw [wf, wfLB_node_iff] at h
  exact ⟨wfLB_mono (Nat.zero_le r) h.2.2.1, wfLB_mono (Nat.zero_le r) h.2.2.2, h.2.1⟩

theorem cofactor_lo {r : Nat} {lo hi : N} (h : wf (N.node r lo hi) = true)
    (env : Nat → Bool) :
    evalN (N.node r lo hi) (upd env r false) = evalN lo env := by
  rw [wf, wfLB_node_iff] at h
  have hr : upd env r false r = false := by simp [upd]
  have hnot : r ∉ vars lo := fun hmem => absurd (wfLB_vars h.2.2.1 r hmem) (lt_irrefl r)
  simp only [evalN, hr, Bool.false_eq_true, if_false]
  exact evalN_indep hnot env false

theorem cofactor_hi {r : Nat} {lo hi : N} (h : wf (N.node r lo hi) = true)
    (env : Nat → Bool) :
    evalN (N.node r lo hi) (upd env r true) = evalN hi env := by
  rw [wf, wfLB_node_iff] at h
  have hr : upd env r true r = true := by simp [upd]
  have hnot : r ∉ vars hi := fun hmem => absurd (wfLB_vars h.2.2.2 r hmem) (lt_irrefl r)
  simp only [evalN, hr, if_true]
  exact evalN_indep hnot env true

theorem canonical_aux : ∀ (k : Nat) (f g : N), sizeN f + sizeN g ≤ k →
    wf f = true → wf g = true → (∀ env, evalN f env = evalN g env) → f = g := by
  intro k
  induction k using Nat.strong_induction_on with
  | _ k ih =>
    intro f g hk hf hg hsem
    cases f with
    | zero =>
      cases g with
      | zero => rfl
      | one =>
        have := hsem (fun _ => true)
        simp [evalN] at this
      | node s gl gh =>
        exfalso
        simp only [sizeN] at hk
        have hpgl := sizeN_pos gl
        have hpgh := sizeN_pos gh
        obtain ⟨hwgl, hwgh, hne⟩ := wf_node_parts hg
        have hgl : N.zero = gl := by
          refine ih (1 + sizeN gl) (by omega) N.zero gl (by simp [sizeN]) rfl hwgl ?_
          intro env
          rw [← cofactor_lo hg env]
          exact hsem (upd env s false)
        have hgh : N.zero = gh := by
          refine ih (1 + sizeN gh) (by omega) N.zero gh (by simp [sizeN]) rfl hwgh ?_
          intro env
          rw [← cofactor_hi hg env]
          exact hsem (upd env s true)
        exact hne (hgl.symm.trans hgh)
    | one =>
      cases g with
      | zero =>
        have := hsem (fun _ => true)
        simp [evalN] at this
      | one => rfl
      | node s gl gh =>
        exfalso
        simp only [sizeN] at hk
        have hpgl := sizeN_pos gl
        have hpgh := sizeN_pos gh
        obtain ⟨hwgl, hwgh, hne⟩ := wf_node_parts hg
        have hgl : N.one = gl := by
          refine ih (1 + sizeN gl) (by omega) N.one gl (by simp [sizeN]) rfl hwgl ?_
          intro env
          rw [← cofactor_lo hg env]
          exact hsem (upd env s false)
        have hgh : N.one = gh := by
          refine ih (1 + sizeN gh) (by omega) N.one gh (by simp [sizeN]) rfl hwgh ?_
          intro env
          rw [← cofactor_hi hg env]
          exact hsem (upd env s true)
        exact hne (hgl.symm.trans hgh)
    | node r fl fh =>
      have hpfl := sizeN_pos fl
      have hpfh := sizeN_pos fh
      obtain ⟨hwfl, hwfh, hnef⟩ := wf_node_parts hf
      cases g with
      | zero =>
        exfalso
        simp only [sizeN] at hk
        have hfl : fl = N.zero := by
          refine ih (sizeN fl + 1) (by omega) fl N.zero (by simp [sizeN]) hwfl rfl ?_
          intro env
          rw [← cofactor_lo hf env]
          exact hsem (upd env r false)
        have hfh : fh = N.zero := by
          refine ih (sizeN fh + 1) (by omega) fh N.zero (by simp [sizeN]) hwfh rfl ?_
          intro env
          rw [← cofactor_hi hf env]
          exact hsem (upd env r true)
        exact hnef (hfl.trans hfh.symm)
      | one =>
        exfalso
        simp only [sizeN] at hk
        have hfl : fl = N.one := by
          refine ih (sizeN fl + 1) (by omega) fl N.one (by simp [sizeN]) hwfl rfl ?_
          intro env
          rw [← cofactor_lo hf env]
          exact hsem (upd env r false)
        have hfh : fh = N.one := by
          refine ih (sizeN fh + 1) (by omega) fh N.one (by simp [sizeN]) hwfh rfl ?_
          intro env
          rw [← cofactor_hi hf env]
          exact hsem (upd env r true)
        exact hnef (hfl.trans hfh.symm)
      | node s gl gh =>
        simp only [sizeN] at hk
        have hpgl := sizeN_pos gl
        have hpgh := sizeN_pos gh
        obtain ⟨hwgl, hwgh, hneg⟩ := wf_node_parts hg
        rcases Nat.lt_trichotomy r s with hrs | rfl | hsr
        · exfalso
          have hnotmem : r ∉ vars (N.node s gl gh) := by
            intro hmem
            have := wf_node_vars_le hg hmem
            omega
          have hsem' : ∀ env, evalN fl env = evalN fh env := by
            intro env
            rw [← cofactor_lo hf env, ← cofactor_hi hf env, hsem, hsem,
              evalN_indep hnotmem, evalN_indep hnotmem]
          exact hnef (ih (sizeN fl + sizeN fh) (by omega) fl fh le_rfl hwfl hwfh hsem')
        · have hfl : fl = gl := by
            refine ih (sizeN fl + sizeN gl) (by omega) fl gl le_rfl hwfl hwgl ?_
            intro env
            rw [← cofactor_lo hf env, ← cofactor_lo hg env]
            exact hsem (upd env r false)
          have hfh : fh = gh := by
            refine ih (sizeN fh + sizeN gh) (by omega) fh gh le_rfl hwfh hwgh ?_
            intro env
            rw [← cofactor_hi hf env, ← cofactor_hi hg env]
            exact hsem (upd env r true)
          rw [hfl, hfh]
        · exfalso
          have hnotmem : s ∉ vars (N.node r fl fh) := by
            intro hmem
            have := wf_node_vars_le hf hmem
            omega
          have hsem' : ∀ env, evalN gl env = evalN gh env := by
            intro env
            rw [← cofactor_lo hg env, ← cofactor_hi hg env, ← hsem, ← hsem,
              evalN_indep hnotmem, evalN_indep hnotmem]
          exact hneg (ih (sizeN gl + sizeN gh) (by omega) gl gh le_rfl hwgl hwgh hsem')

theorem canonical {f g : N} (hf : wf f = true) (hg : wf g = true)
    (hsem : ∀ env, evalN f env = evalN g env) : f = g :=
  canonical_aux (sizeN f + sizeN g) f g le_rfl hf hg hsem

theorem wf_varNode {u : Nat} (hu : 0 < u) : wf (varNode u) = true :=
  wfLB_obddnode hu rfl rfl

theorem wf_built {n : N} (hb : Built n) : wf n = true := by
  induction hb with
  | zero => rfl
  | one => rfl
  | var u hu => exact wf_varNode hu
  | not _ ih => exact wfLB_neg ih
  | or _ _ ih1 ih2 => exact wf_ite ih1 rfl ih2
  | and _ _ ih1 ih2 => exact wf_ite ih1 ih2 rfl
  | xor _ _ ih1 ih2 => exact wf_ite ih1 (wfLB_neg ih2) ih2
  | imp _ _ ih1 ih2 => exact wf_ite (wfLB_neg ih1) rfl ih2
  | restrict x b _ ih => exact wfLB_restrict ih

theorem not_dependsOn_of_not_mem {n : N} {x : Nat} (hx : x ∉ vars n) :
    ¬ dependsOn n x := by
  rintro ⟨env, hne⟩
  exact hne (by rw [evalN_indep hx, evalN_indep hx])

theorem dependsOn_of_mem {n : N} {x : Nat} (hwf : wf n = true) (hx : x ∈ vars n) :
    dependsOn n x := by
  induction n with
  | zero => simp [vars] at hx
  | one => simp [vars] at hx
  | node r lo hi ihlo ihhi =>
    obtain ⟨hwlo, hwhi, hne⟩ := wf_node_parts hwf
    have hbound := (wfLB_node_iff 0 r lo hi).mp hwf
    simp only [vars, Finset.mem_insert, Finset.mem_union] at hx
    have hrlo : r ∉ vars lo := fun hmem => absurd (wfLB_vars hbound.2.2.1 r hmem) (lt_irrefl r)
    have hrhi : r ∉ vars hi := fun hmem => absurd (wfLB_vars hbound.2.2.2 r hmem) (lt_irrefl r)
    rcases hx with rfl | hx | hx
    · have hnall : ¬ ∀ env, evalN lo env = evalN hi env :=
        fun hall => hne (canonical hwlo hwhi hall)
      obtain ⟨env0, hne0⟩ := not_forall.mp hnall
      refine ⟨env0, ?_⟩
      rw [cofactor_lo hwf env0, cofactor_hi hwf env0]
      exact fun hc => hne0 hc.symm
    · obtain ⟨env0, hne0⟩ := ihlo hwlo hx
      have hxr : ¬ (x = r) := fun hc => by
        subst hc
        exact hrlo hx
      refine ⟨upd env0 r false, ?_⟩
      have key : ∀ b : Bool,
          evalN (N.node r lo hi) (upd (upd env0 r false) x b) = evalN lo (upd env0 x b) := by
        intro b
        rw [upd_comm (show r ≠ x from fun hc => hxr hc.symm) false b, cofactor_lo hwf (upd env0 x b)]
      rw [key true, key false]
      exact hne0
    · obtain ⟨env0, hne0⟩ := ihhi hwhi hx
      have hxr : ¬ (x = r) := fun hc => by
        subst hc
        exact hrhi hx
      refine ⟨upd env0 r true, ?_⟩
      have key : ∀ b : Bool,
          evalN (N.node r lo hi) (upd (upd env0 r true) x b) = evalN hi (upd env0 x b) := by
        intro b
        rw [upd_comm (show r ≠ x from fun hc => hxr hc.symm) true b, cofactor_hi hwf (upd env0 x b)]
      rw [key true, key false]
      exact hne0

theorem mem_vars_iff_dependsOn {n : N} {x : Nat} (hwf : wf n = true) :
    x ∈ vars n ↔ dependsOn n x := by
  constructor
  · exact dependsOn_of_mem hwf
  · intro hdep
    by_contra hmem
    exact not_dependsOn_of_not_mem hmem hdep

/-! ## Lemmas about the post-order traversal and the support computation -/

theorem dfsPost_vis_mono : ∀ (n : N) (vis : List N) {m : N}, m ∈ vis →
    m ∈ (dfsPost n vis).2 := by
  intro n
  induction n with
  | zero =>
    intro vis m hm
    simp only [dfsPost]
    split
    · exact hm
    · exact List.mem_cons_of_mem _ hm
  | one =>
    intro vis m hm
    simp only [dfsPost]
    split
    · exact hm
    · exact List.mem_cons_of_mem _ hm
  | node r lo hi ihlo ihhi =>
    intro vis m hm
    simp only [dfsPost]
    split
    · exact ihhi _ (ihlo _ hm)
    · exact List.mem_cons_of_mem _ (ihhi _ (ihlo _ hm))

theorem dfsPost_vis_iff : ∀ (n : N) (vis : List N) (m : N),
    m ∈ (dfsPost n vis).2 ↔ m ∈ (dfsPost n vis).1 ∨ m ∈ vis := by
  intro n
  induction n with
  | zero =>
    intro vis m
    simp only [dfsPost]
    split
    · rename_i hv
      simp only [List.not_mem_nil, false_or]
    · simp [List.mem_cons, or_comm]
  | one =>
    intro vis m
    simp only [dfsPost]
    split
    · rename_i hv
      simp only [List.not_mem_nil, false_or]
    · simp [List.mem_cons, or_comm]
  | node r lo hi ihlo ihhi =>
    intro vis m
    simp only [dfsPost]
    split
    · rw [ihhi, ihlo, List.mem_append]
      tauto
    · simp only [List.mem_cons, List.mem_append, ihhi, ihlo, List.mem_singleton]
      tauto

theorem dfsPost_self_mem (n : N) (vis : List N) : n ∈ (dfsPost n vis).2 := by
  cases n with
  | zero =>
    simp only [dfsPost]
    split
    · rename_i hv
      exact hv
    · exact List.mem_cons_self _ _
  | one =>
    simp only [dfsPost]
    split
    · rename_i hv
      exact hv
    · exact List.mem_cons_self _ _
  | node r lo hi =>
    simp only [dfsPost]
    split
    · rename_i hv
      exact hv
    · exact List.mem_cons_self _ _

theorem dfsPost_yield_node_vars : ∀ (n : N) (vis : List N) {m : N},
    m ∈ (dfsPost n vis).1 → ∀ (r : Nat) (lo hi : N), m = N.node r lo hi →
    r ∈ vars n := by
  intro n
  induction n with
  | zero =>
    intro vis m hm r lo hi hmeq
    simp only [dfsPost] at hm
    split at hm
    · simp at hm
    · rw [List.mem_singleton] at hm
      rw [hm] at hmeq
      exact N.noConfusion hmeq
  | one =>
    intro vis m hm r lo hi hmeq
    simp only [dfsPost] at hm
    split at hm
    · simp at hm
    · rw [List.mem_singleton] at hm
      rw [hm] at hmeq
      exact N.noConfusion hmeq
  | node r0 lo0 hi0 ihlo ihhi =>
    intro vis m hm r lo hi hmeq
    have hsublo : vars lo0 ⊆ vars (N.node r0 lo0 hi0) := by
      simp only [vars]
      intro y hy
      exact Finset.mem_insert_of_mem (Finset.mem_union_left _ hy)
    have hsubhi : vars hi0 ⊆ vars (N.node r0 lo0 hi0) := by
      simp only [vars]
      intro y hy
      exact Finset.mem_insert_of_mem (Finset.mem_union_right _ hy)
    simp only [dfsPost] at hm
    split at hm
    · rw [List.mem_append] at hm
      rcases hm with hm | hm
      · exact hsublo (ihlo _ hm r lo hi hmeq)
      · exact hsubhi (ihhi _ hm r lo hi hmeq)
    · rw [List.mem_append, List.mem_append, List.mem_singleton] at hm
      rcases hm with (hm | hm) | hm
      · exact hsublo (ihlo _ hm r lo hi hmeq)
      · exact hsubhi (ihhi _ hm r lo hi hmeq)
      · rw [hm] at hmeq
        cases hmeq
        simp [vars]

theorem dfsPost_vis_size : ∀ (n : N) (vis : List N) {m : N},
    m ∈ (dfsPost n vis).2 → m ∈ vis ∨ sizeN m ≤ sizeN n := by
  intro n
  induction n with
  | zero =>
    intro vis m hm
    simp only [dfsPost] at hm
    split at hm
    · exact Or.inl hm
    · rcases List.mem_cons.mp hm with rfl | hm
      · exact Or.inr (le_refl _)
      · exact Or.inl hm
  | one =>
    intro vis m hm
    simp only [dfsPost] at hm
    split at hm
    · exact Or.inl hm
    · rcases List.mem_cons.mp hm with rfl | hm
      · exact Or.inr (le_refl _)
      · exact Or.inl hm
  | node r0 lo0 hi0 ihlo ihhi =>
    intro vis m hm
    have hstep : m ∈ (dfsPost hi0 (dfsPost lo0 vis).2).2 →
        m ∈ vis ∨ sizeN m ≤ sizeN (N.node r0 lo0 hi0) := by
      intro hv
      rcases ihhi _ hv with hv' | hs
      · rcases ihlo _ hv' with hv'' | hs
        · exact Or.inl hv''
        · exact Or.inr (by simp only [sizeN]; omega)
      · exact Or.inr (by simp only [sizeN]; omega)
    simp only [dfsPost] at hm
    split at hm
    · exact hstep hm
    · rcases List.mem_cons.mp hm with rfl | hm
      · exact Or.inr (le_refl _)
      · exact hstep hm

theorem dfsPost_complete : ∀ (n : N) (vis : List N) {x : Nat}, x ∈ vars n →
    ∃ lo hi, N.node x lo hi ∈ (dfsPost n vis).2 := by
  intro n
  induction n with
  | zero => intro vis x hx; simp [vars] at hx
  | one => intro vis x hx; simp [vars] at hx
  | node r0 lo0 hi0 ihlo ihhi =>
    intro vis x hx
    simp only [vars, Finset.mem_insert, Finset.mem_union] at hx
    rcases hx with rfl | hx | hx
    · exact ⟨lo0, hi0, dfsPost_self_mem _ _⟩
    · obtain ⟨lo, hi, hmem⟩ := ihlo vis hx
      have h2 : N.node x lo hi ∈ (dfsPost hi0 (dfsPost lo0 vis).2).2 :=
        dfsPost_vis_mono _ _ hmem
      refine ⟨lo, hi, ?_⟩
      simp only [dfsPost]
      split
      · exact h2
      · exact List.mem_cons_of_mem _ h2
    · obtain ⟨lo, hi, hmem⟩ := ihhi (dfsPost lo0 vis).2 hx
      refine ⟨lo, hi, ?_⟩
      simp only [dfsPost]
      split
      · exact hmem
      · exact List.mem_cons_of_mem _ hmem

theorem mem_collect_go : ∀ (ys : List N) (acc : List Nat) (x : Nat),
    x ∈ ys.foldl collectStep acc ↔
      x ∈ acc ∨ ∃ m ∈ ys, (∃ lo hi, m = N.node x lo hi) ∧ 0 < x := by
  intro ys
  induction ys with
  | nil => intro acc x; simp
  | cons m ms ih =>
    intro acc x
    rw [List.foldl_cons, ih]
    have hstep : x ∈ collectStep acc m ↔
        x ∈ acc ∨ ((∃ lo hi, m = N.node x lo hi) ∧ 0 < x) := by
      cases m with
      | zero => simp [collectStep]
      | one => simp [collectStep]
      | node r lo hi =>
        show x ∈ (if 0 < r then (if r ∈ acc then acc else acc ++ [r]) else acc) ↔ _
        by_cases hr : 0 < r
        · rw [if_pos hr]
          by_cases hrm : r ∈ acc
          · rw [if_pos hrm]
            constructor
            · exact fun hx => Or.inl hx
            · rintro (hx | ⟨⟨lo', hi', heq⟩, hxpos⟩)
              · exact hx
              · cases heq
                exact hrm
          · rw [if_neg hrm, List.mem_append, List.mem_singleton]
            constructor
            · rintro (hx | rfl)
              · exact Or.inl hx
              · exact Or.inr ⟨⟨lo, hi, rfl⟩, hr⟩
            · rintro (hx | ⟨⟨lo', hi', heq⟩, hxpos⟩)
              · exact Or.inl hx
              · cases heq
                exact Or.inr rfl
        · rw [if_neg hr]
          constructor
          · exact fun hx => Or.inl hx
          · rintro (hx | ⟨⟨lo', hi', heq⟩, hxpos⟩)
            · exact hx
            · cases heq
              exact absurd hxpos hr
    rw [hstep]
    simp only [List.mem_cons]
    constructor
    · rintro ((hx | hm) | ⟨m', hm', hint⟩)
      · exact Or.inl hx
      · exact Or.inr ⟨m, Or.inl rfl, hm⟩
      · exact Or.inr ⟨m', Or.inr hm', hint⟩
    · rintro (hx | ⟨m', hm' | hm', hint⟩)
      · exact Or.inl (Or.inl hx)
      · rw [hm'] at hint
        exact Or.inl (Or.inr hint)
      · exact Or.inr ⟨m', hm', hint⟩

theorem collect_go_nodup : ∀ (ys : List N) (acc : List Nat), acc.Nodup →
    (ys.foldl collectStep acc).Nodup := by
  intro ys
  induction ys with
  | nil => intro acc h; exact h
  | cons m ms ih =>
    intro acc h
    rw [List.foldl_cons]
    refine ih _ ?_
    cases m with
    | zero => exact h
    | one => exact h
    | node r lo hi =>
      show ((if 0 < r then (if r ∈ acc then acc else acc ++ [r]) else acc) : List Nat).Nodup
      by_cases hr : 0 < r
      · rw [if_pos hr]
        by_cases hrm : r ∈ acc
        · rw [if_pos hrm]
          exact h
        · rw [if_neg hrm]
          rw [List.nodup_append]
          refine ⟨h, List.nodup_singleton r, ?_⟩
          intro a ha har
          rw [List.mem_singleton] at har
          rw [har] at ha
          exact hrm ha
      · rw [if_neg hr]
        exact h

theorem inputsList_nodup (n : N) : (inputsList n).Nodup := by
  rw [inputsList, List.nodup_reverse]
  exact collect_go_nodup _ [] List.nodup_nil

theorem mem_inputsList_iff {n : N} (hwf : wf n = true) (x : Nat) :
    x ∈ inputsList n ↔ x ∈ vars n := by
  rw [inputsList, List.mem_reverse, collectRoots, mem_collect_go]
  simp only [List.not_mem_nil, false_or]
  constructor
  · rintro ⟨m, hm, ⟨lo, hi, rfl⟩, hxpos⟩
    exact dfsPost_yield_node_vars n [] hm x lo hi rfl
  · intro hx
    obtain ⟨lo, hi, hmem⟩ := dfsPost_complete n [] hx
    rcases (dfsPost_vis_iff n [] _).mp hmem with hy | hy
    · exact ⟨N.node x lo hi, hy, ⟨lo, hi, rfl⟩, wfLB_vars hwf x hx⟩
    · simp at hy

theorem inputsList_head_node {r : Nat} {lo hi : N}
    (hwf : wf (N.node r lo hi) = true) :
    (inputsList (N.node r lo hi)).head? = some r := by
  have hbound := (wfLB_node_iff 0 r lo hi).mp hwf
  have hnotvis : N.node r lo hi ∉ (dfsPost hi (dfsPost lo []).2).2 := by
    intro hmem
    have hplo := sizeN_pos lo
    have hphi := sizeN_pos hi
    rcases dfsPost_vis_size hi _ hmem with hv | hs
    · rcases dfsPost_vis_size lo _ hv with hv' | hs'
      · simp at hv'
      · simp only [sizeN] at hs'
        omega
    · simp only [sizeN] at hs
      omega
  have hyields : (dfsPost (N.node r lo hi) []).1 =
      (dfsPost lo []).1 ++ (dfsPost hi (dfsPost lo []).2).1 ++ [N.node r lo hi] := by
    simp only [dfsPost]
    rw [if_neg hnotvis]
  rw [inputsList, hyields, collectRoots, List.foldl_append]
  have hracc : r ∉ ((dfsPost lo []).1 ++ (dfsPost hi (dfsPost lo []).2).1).foldl
      collectStep [] := by
    intro hmem
    rw [mem_collect_go] at hmem
    rcases hmem with hmem | ⟨m, hm, ⟨lo', hi', rfl⟩, hrpos⟩
    · simp at hmem
    · rw [List.mem_append] at hm
      rcases hm with hm | hm
      · have := dfsPost_yield_node_vars lo [] hm r lo' hi' rfl
        exact absurd (wfLB_vars hbound.2.2.1 r this) (lt_irrefl r)
      · have := dfsPost_yield_node_vars hi _ hm r lo' hi' rfl
        exact absurd (wfLB_vars hbound.2.2.2 r this) (lt_irrefl r)
  rw [List.foldl_cons, List.foldl_nil]
  show (collectStep _ (N.node r lo hi)).reverse.head? = some r
  rw [collectStep]
  rw [if_pos hbound.1, if_neg hracc, List.reverse_append]
  rfl

/-! ## Lemmas about the variable registry -/

theorem alookup_append {α : Type} (k : Identity) (l1 l2 : List (Identity × α)) :
    alookup k (l1 ++ l2) =
      match alookup k l1 with
      | some v => some v
      | none => alookup k l2 := by
  induction l1 with
  | nil => rfl
  | cons p tl ih =>
    obtain ⟨k', v⟩ := p
    by_cases hk : k = k'
    · simp [List.cons_append, alookup, hk]
    · simp [List.cons_append, alookup, hk, ih]

theorem alookup_mem_snd {α : Type} {k : Identity} {l : List (Identity × α)} {v : α}
    (h : alookup k l = some v) : v ∈ l.map Prod.snd := by
  induction l with
  | nil => simp [alookup] at h
  | cons p tl ih =>
    obtain ⟨k', v'⟩ := p
    rw [alookup] at h
    by_cases hk : k = k'
    · rw [if_pos hk, Option.some_inj] at h
      rw [h]
      exact List.mem_cons_self _ _
    · rw [if_neg hk] at h
      exact List.mem_cons_of_mem _ (ih h)

theorem alookup_inj {α : Type} {l : List (Identity × α)}
    (hnd : (l.map Prod.snd).Nodup) {k1 k2 : Identity} {v1 v2 : α}
    (h1 : alookup k1 l = some v1) (h2 : alookup k2 l = some v2) (hk : k1 ≠ k2) :
    v1 ≠ v2 := by
  induction l with
  | nil => simp [alookup] at h1
  | cons p tl ih =>
    obtain ⟨k0, v0⟩ := p
    rw [List.map_cons, List.nodup_cons] at hnd
    rw [alookup] at h1 h2
    by_cases e1 : k1 = k0 <;> by_cases e2 : k2 = k0
    · exact absurd (e1.trans e2.symm) hk
    · rw [if_pos e1, Option.some_inj] at h1
      rw [if_neg e2] at h2
      intro hc
      apply hnd.1
      show v0 ∈ List.map Prod.snd tl
      rw [h1, hc]
      exact alookup_mem_snd h2
    · rw [if_neg e1] at h1
      rw [if_pos e2, Option.some_inj] at h2
      intro hc
      apply hnd.1
      show v0 ∈ List.map Prod.snd tl
      rw [h2, ← hc]
      exact alookup_mem_snd h1
    · rw [if_neg e1] at h1
      rw [if_neg e2] at h2
      exact ih hnd.2 h1 h2

theorem Inv_init : Inv regInit := by
  refine ⟨le_refl 1, ?_, fun k => rfl⟩
  simp [regInit]

theorem varReq_spec {st : RegState} (hinv : Inv st) (k : Identity) :
    Inv (varReq st k).2 ∧
    alookup k (varReq st k).2.VARIABLES = some (varReq st k).1 ∧
    alookup k (varReq st k).2.UNIQIDS = some (varReq st k).1.uniqid ∧
    (∀ (k' : Identity) (v : VarInstance), alookup k' st.VARIABLES = some v →
      alookup k' (varReq st k).2.VARIABLES = some v) ∧
    (∀ (k' : Identity) (u : Nat), alookup k' st.UNIQIDS = some u →
      alookup k' (varReq st k).2.UNIQIDS = some u) ∧
    (varReq st k).1.uniqid < (varReq st k).2.COUNT := by
  obtain ⟨hc, hrange, hsync⟩ := hinv
  cases hl : alookup k st.VARIABLES with
  | some v =>
    have hres : varReq st k = (v, st) := by
      rw [varReq, hl]
    rw [hres]
    have hu : alookup k st.UNIQIDS = some v.uniqid := by
      have := hsync k
      rw [hl] at this
      exact this.symm
    have hlt : v.uniqid < st.COUNT := by
      have hmem := alookup_mem_snd hu
      rw [hrange, List.mem_range'_1] at hmem
      omega
    exact ⟨⟨hc, hrange, hsync⟩, hl, hu, fun k' v' h => h, fun k' u h => h, hlt⟩
  | none =>
    have hu : alookup k st.UNIQIDS = none := by
      have := hsync k
      rw [hl] at this
      exact this.symm
    have hres : varReq st k =
        (⟨st.nextAddr, st.COUNT, k.1, k.2⟩,
          ⟨st.VARIABLES ++ [(k, ⟨st.nextAddr, st.COUNT, k.1, k.2⟩)],
            st.UNIQIDS ++ [((k.1, k.2), st.COUNT)], st.COUNT + 1, st.nextAddr + 1⟩) := by
      rw [varReq, hl]
      simp only [mkVariable, hu]
      simp only [Option.getD_none, if_pos]
    have hkk : ((k.1, k.2) : Identity) = k := rfl
    rw [hres]
    refine ⟨⟨by show 1 ≤ st.COUNT + 1; omega, ?_, ?_⟩, ?_, ?_, ?_, ?_,
      by show st.COUNT < st.COUNT + 1; omega⟩
    · show (st.UNIQIDS ++ [((k.1, k.2), st.COUNT)]).map Prod.snd =
        List.range' 1 (st.COUNT + 1 - 1)
      rw [List.map_append, hrange]
      have h1 : st.COUNT + 1 - 1 = (st.COUNT - 1) + 1 := by omega
      rw [h1, List.range'_concat]
      have h2 : 1 + 1 * (st.COUNT - 1) = st.COUNT := by omega
      rw [h2]
      rfl
    · intro k'
      show (alookup k' (st.VARIABLES ++ [(k, _)])).map VarInstance.uniqid =
        alookup k' (st.UNIQIDS ++ [((k.1, k.2), st.COUNT)])
      rw [alookup_append, alookup_append, hkk]
      cases hk' : alookup k' st.VARIABLES with
      | some v' =>
        have := hsync k'
        rw [hk'] at this
        rw [← this]
        rfl
      | none =>
        have := hsync k'
        rw [hk'] at this
        rw [← this]
        show (alookup k' [(k, _)]).map VarInstance.uniqid = alookup k' [(k, st.COUNT)]
        by_cases he : k' = k <;> simp [alookup, he]
    · show alookup k (st.VARIABLES ++ [(k, _)]) = some _
      rw [alookup_append, hl]
      simp [alookup]
    · show alookup k (st.UNIQIDS ++ [((k.1, k.2), st.COUNT)]) = some st.COUNT
      rw [alookup_append, hkk, hu]
      simp [alookup]
    · intro k' v' h
      show alookup k' (st.VARIABLES ++ [(k, _)]) = some v'
      rw [alookup_append, h]
    · intro k' u h
      show alookup k' (st.UNIQIDS ++ [((k.1, k.2), st.COUNT)]) = some u
      rw [alookup_append, h]

theorem varReq_stable {st : RegState} {k : Identity} {v : VarInstance}
    (h : alookup k st.VARIABLES = some v) : varReq st k = (v, st) := by
  rw [varReq, h]

theorem runList_inv {st : RegState} (hinv : Inv st) (ks : List Identity) :
    Inv (runList st ks) := by
  induction ks generalizing st with
  | nil => exact hinv
  | cons k tl ih => exact ih (varReq_spec hinv k).1

theorem runList_pres_V {st : RegState} (hinv : Inv st) (ks : List Identity)
    {k : Identity} {v : VarInstance} (h : alookup k st.VARIABLES = some v) :
    alookup k (runList st ks).VARIABLES = some v := by
  induction ks generalizing st with
  | nil => exact h
  | cons k' tl ih =>
    obtain ⟨hinv', -, -, hpres, -, -⟩ := varReq_spec hinv k'
    exact ih hinv' (hpres _ _ h)

theorem runList_pres_U {st : RegState} (hinv : Inv st) (ks : List Identity)
    {k : Identity} {u : Nat} (h : alookup k st.UNIQIDS = some u) :
    alookup k (runList st ks).UNIQIDS = some u := by
  induction ks generalizing st with
  | nil => exact h
  | cons k' tl ih =>
    obtain ⟨hinv', -, -, -, hpres, -⟩ := varReq_spec hinv k'
    exact ih hinv' (hpres _ _ h)

theorem varReq_distinct {st : RegState} (hinv : Inv st) {k1 k2 : Identity}
    (hk : k1 ≠ k2) :
    ((varReq ((varReq st k1).2) k2).1).uniqid ≠ ((varReq st k1).1).uniqid := by
  obtain ⟨hinv1, hV1, hU1, -, -, hlt1⟩ := varReq_spec hinv k1
  cases hl : alookup k2 (varReq st k1).2.VARIABLES with
  | some v2 =>
    rw [varReq_stable hl]
    have hu2 : alookup k2 (varReq st k1).2.UNIQIDS = some v2.uniqid := by
      have := hinv1.2.2 k2
      rw [hl] at this
      exact this.symm
    have hnd : ((varReq st k1).2.UNIQIDS.map Prod.snd).Nodup := by
      rw [hinv1.2.1]
      exact List.nodup_range' _ _
    exact alookup_inj hnd hu2 hU1 (fun hc => hk hc.symm)
  | none =>
    have hu2 : alookup k2 (varReq st k1).2.UNIQIDS = none := by
      have := hinv1.2.2 k2
      rw [hl] at this
      exact this.symm
    have : (varReq ((varReq st k1).2) k2).1.uniqid = (varReq st k1).2.COUNT := by
      rw [varReq, hl]
      simp only [mkVariable, hu2, Option.getD_none]
    rw [this]
    omega

/-! ## Lemmas about input validation, and remaining helpers -/

theorem diagram_ext {d1 d2 : OrderedBinaryDecisionDiagram} (h : d1.node = d2.node) :
    d1 = d2 := by
  cases d1
  cases d2
  cases h
  rfl

theorem wf_zero : wf N.zero = true := rfl

theorem wf_one : wf N.one = true := rfl

theorem checkNames_isErr (l : List NameElem) :
    isErr (checkNames l) =
      l.any (fun e => match e with | .notStr => true | _ => false) := by
  induction l with
  | nil => rfl
  | cons e tl ih =>
    cases e with
    | notStr => rfl
    | str s =>
      rw [checkNames]
      cases htl : checkNames tl with
      | error e' =>
        rw [htl] at ih
        simp [Except.map, ih.symm, isErr]
      | ok names =>
        rw [htl] at ih
        simp [Except.map, ih.symm, isErr]

theorem checkIndices_isErr (l : List IndexElem) :
    isErr (checkIndices l) =
      (l.any (fun e => match e with | .notInt => true | _ => false) ||
       l.any (fun e => match e with | .int i => decide (i < 0) | _ => false)) := by
  induction l with
  | nil => rfl
  | cons e tl ih =>
    cases e with
    | notInt => rfl
    | int i =>
      rw [checkIndices]
      by_cases hi : i < 0
      · rw [if_pos hi]
        simp [isErr, hi]
      · rw [if_neg hi]
        cases htl : checkIndices tl with
        | error e' =>
          rw [htl] at ih
          simp only [List.any_cons]
          simp [Except.map, ih.symm, isErr, hi]
        | ok idx =>
          rw [htl] at ih
          simp only [List.any_cons]
          simp [Except.map, ih.symm, isErr, hi]

theorem validateIndex_isErr (names : List String) (ix : IndexInput) :
    isErr (validateVar.validateIndex names ix) =
      (match ix with
       | .other => true
       | .none => false
       | .int i => decide (i < 0)
       | .tup l =>
         l.any (fun e => match e with | .notInt => true | _ => false) ||
         l.any (fun e => match e with | .int i => decide (i < 0) | _ => false)) := by
  cases ix with
  | other => rfl
  | none => rfl
  | int i =>
    show isErr (match checkIndices [.int i] with
      | .error e => .error e
      | .ok indices => .ok (names, indices)) = decide (i < 0)
    rw [checkIndices]
    by_cases hi : i < 0
    · rw [if_pos hi]
      simp [isErr, hi]
    · rw [if_neg hi]
      simp [checkIndices, Except.map, isErr, hi]
  | tup l =>
    show isErr (match checkIndices l with
      | .error e => .error e
      | .ok indices => .ok (names, indices)) =
      (l.any (fun e => match e with | .notInt => true | _ => false) ||
       l.any (fun e => match e with | .int i => decide (i < 0) | _ => false))
    rw [← checkIndices_isErr]
    cases checkIndices l <;> rfl

theorem var_isErr (st : RegState) (nm : NameInput) (ix : IndexInput) :
    isErr (var st nm ix).1 = badInput nm ix := by
  cases nm with
  | other => rfl
  | str s =>
    have hval : validateVar (.str s) ix = validateVar.validateIndex [s] ix := by
      rw [validateVar]
      rfl
    rw [var, hval]
    cases hv : validateVar.validateIndex [s] ix with
    | error e =>
      have := validateIndex_isErr [s] ix
      rw [hv] at this
      simp only [badInput, Bool.false_or]
      exact this
    | ok k =>
      have := validateIndex_isErr [s] ix
      rw [hv] at this
      simp only [badInput, Bool.false_or]
      exact this
  | tup l =>
    by_cases hl : l = []
    · rw [hl]
      rfl
    · have hne : ¬ (l = []) := hl
      rw [var]
      rw [validateVar]
      rw [if_neg hne]
      have hie : l.isEmpty = false := by
        cases l with
        | nil => exact absurd rfl hne
        | cons a tl => rfl
      have hnm : badInput (.tup l) ix =
          ((l.any (fun e => match e with | .notStr => true | _ => false)) ||
           (match ix with
            | .other => true
            | .none => false
            | .int i => decide (i < 0)
            | .tup li =>
              li.any (fun e => match e with | .notInt => true | _ => false) ||
              li.any (fun e => match e with | .int i => decide (i < 0) | _ => false))) := by
        simp only [badInput, hie, Bool.false_or]
      rw [hnm]
      cases hcn : checkNames l with
      | error e =>
        have := checkNames_isErr l
        rw [hcn] at this
        simp only [isErr] at this
        rw [← this]
        rfl
      | ok names =>
        have := checkNames_isErr l
        rw [hcn] at this
        simp only [isErr] at this
        rw [← this]
        simp only [Bool.false_or]
        cases hv : validateVar.validateIndex names ix with
        | error e =>
          have h2 := validateIndex_isErr names ix
          rw [hv] at h2
          rw [← h2]
          rfl
        | ok k =>
          have h2 := validateIndex_isErr names ix
          rw [hv] at h2
          rw [← h2]
          rfl

theorem var_state_on_err {st : RegState} {nm : NameInput} {ix : IndexInput}
    (h : isErr (var st nm ix).1 = true) : (var st nm ix).2 = st := by
  rw [var]
  cases hv : validateVar nm ix with
  | error e => rfl
  | ok k =>
    rw [var, hv] at h
    simp [isErr] at h

theorem var_ok_of_not_err {st : RegState} {nm : NameInput} {ix : IndexInput}
    (h : isErr (var st nm ix).1 = false) : ∃ v, (var st nm ix).1 = Except.ok v := by
  cases hv : (var st nm ix).1 with
  | error e =>
    rw [hv] at h
    simp [isErr] at h
  | ok v => exact ⟨v, rfl⟩

theorem dfsPost_yield_wf : ∀ (n : N) (vis : List N) {m : N}, wf n = true →
    m ∈ (dfsPost n vis).1 → wf m = true := by
  intro n
  induction n with
  | zero =>
    intro vis m _ hm
    simp only [dfsPost] at hm
    split at hm
    · simp at hm
    · rw [List.mem_singleton] at hm
      rw [hm]
      rfl
  | one =>
    intro vis m _ hm
    simp only [dfsPost] at hm
    split at hm
    · simp at hm
    · rw [List.mem_singleton] at hm
      rw [hm]
      rfl
  | node r0 lo0 hi0 ihlo ihhi =>
    intro vis m hwf hm
    obtain ⟨hwlo, hwhi, -⟩ := wf_node_parts hwf
    simp only [dfsPost] at hm
    split at hm
    · rw [List.mem_append] at hm
      rcases hm with hm | hm
      · exact ihlo _ hwlo hm
      · exact ihhi _ hwhi hm
    · rw [List.mem_append, List.mem_append, List.mem_singleton] at hm
      rcases hm with (hm | hm) | hm
      · exact ihlo _ hwlo hm
      · exact ihhi _ hwhi hm
      · rw [hm]
        exact hwf

/-! ## The claims -/

/-- C1: Canonicity and identity-based equivalence.  Any two diagrams built
through the public operations that denote the same Boolean function are the
same node (hence, through the hash-consed diagram store, the same diagram
wrapper), and `equivalent(d1, d2)` returns true exactly when the two diagrams
wrap the same node instance — an identity comparison, never a deep structural
one (node identity and structural equality coincide by hash-consing). -/
theorem claim_C1 (f g : N) (d1 d2 : OrderedBinaryDecisionDiagram)
    (hf : Built f) (hg : Built g) :
    ((∀ env, evalN f env = evalN g env) → f = g) ∧
    (equivalent d1 d2 = true ↔ d1.node = d2.node) ∧
    (equivalent d1 d2 = true ↔ d1 = d2) := by
  refine ⟨fun hsem => canonical (wf_built hf) (wf_built hg) hsem, ?_, ?_⟩
  · rw [equivalent, decide_eq_true_iff]
  · rw [equivalent, decide_eq_true_iff]
    constructor
    · exact diagram_ext
    · intro h
      rw [h]

/-- Witness for C1 at concrete inputs. -/
theorem claim_C1_witness :
    ((∀ env, evalN (varNode 1) env = evalN (varNode 1) env) →
      varNode 1 = varNode 1) ∧
    (equivalent (varDiagram 1) (varDiagram 1) = true ↔
      (varDiagram 1).node = (varDiagram 1).node) ∧
    (equivalent (varDiagram 1) (varDiagram 1) = true ↔
      varDiagram 1 = varDiagram 1) :=
  claim_C1 (varNode 1) (varNode 1) (varDiagram 1) (varDiagram 1)
    (Built.var 1 (by decide)) (Built.var 1 (by decide))

/-- C2: For well-formed nodes `f, g, h`, `_ite(f, g, h)` computes the Boolean
function "if f then g else h", and the five ordered shortcut cases hold as
stated (first-match-wins; the general case is the Shannon expansion on the
smallest positive root, proved as `ite_eq_unfold`). -/
theorem claim_C2 (f g h : N) (env : Nat → Bool)
    (hf : wf f = true) (hg : wf g = true) (hh : wf h = true) :
    evalN (_ite f g h) env = (if evalN f env then evalN g env else evalN h env) ∧
    _ite f N.one N.zero = f ∧
    _ite f N.zero N.one = _neg f ∧
    _ite N.one g h = g ∧
    _ite N.zero g h = h ∧
    _ite f g g = g :=
  ⟨evalN_ite env hf hg hh, ite_one_zero f, ite_zero_one f, ite_true_arg g h,
    ite_false_arg g h, ite_same f g⟩

/-- Witness for C2 at concrete inputs. -/
theorem claim_C2_witness :
    wf (varNode 1) = true ∧
    evalN (_ite (varNode 1) (varNode 2) (varNode 3)) (fun _ => true) =
      (if evalN (varNode 1) (fun _ => true) then evalN (varNode 2) (fun _ => true)
       else evalN (varNode 3) (fun _ => true)) :=
  ⟨by decide, (claim_C2 (varNode 1) (varNode 2) (varNode 3) (fun _ => true)
    (by decide) (by decide) (by decide)).1⟩

/-- C3 counterexample: the claim says `support` lists the free variables in
the global variable order (ascending uniqid), but for the well-formed diagram
`if x1 then x3 else x2` — produced by the public operation
`_ite(varNode 1, varNode 3, varNode 2)`, e.g. `(a & c) | (~a & b)` — the
computed support is `[1, 3, 2]`, which is not ascending. -/
theorem claim_C3_counterexample :
    wf exSupport = true ∧
    vars exSupport = ({1, 2, 3} : Finset Nat) ∧
    exSupport = _ite (varNode 1) (varNode 3) (varNode 2) ∧
    inputsList exSupport = [1, 3, 2] ∧
    ¬ List.Chain' (· < ·) (inputsList exSupport) := by
  refine ⟨by decide, by decide, by decide, by decide, ?_⟩
  intro hch
  rw [show inputsList exSupport = [1, 3, 2] from by decide] at hch
  simp [List.chain'_cons] at hch

/-- C3 (amended): for every well-formed diagram, `support` returns exactly
the diagram's free variables (the variables the function semantically
depends on), with duplicates removed, in the order produced by the reversed
depth-first post-order visitation (the first element being the diagram's top
variable); `top` returns the first element of `support`, or none for a
constant diagram.  The spec's further claim that this order is ascending in
uniqid is dropped (refuted by `claim_C3_counterexample`). -/
theorem claim_C3_amended (f : OrderedBinaryDecisionDiagram)
    (hwf : wf f.node = true) :
    (inputsList f.node).Nodup ∧
    (∀ x, x ∈ inputsList f.node ↔ x ∈ vars f.node) ∧
    (∀ x, x ∈ inputsList f.node ↔ dependsOn f.node x) ∧
    topVar f = (inputsList f.node).head? ∧
    (∀ r lo hi, f.node = N.node r lo hi → topVar f = some r) ∧
    ((f.node = N.zero ∨ f.node = N.one) → topVar f = none) := by
  refine ⟨inputsList_nodup f.node, fun x => mem_inputsList_iff hwf x, ?_, rfl, ?_, ?_⟩
  · intro x
    rw [mem_inputsList_iff hwf x]
    exact mem_vars_iff_dependsOn hwf
  · intro r lo hi heq
    rw [topVar, heq]
    exact inputsList_head_node (hwf.symm.trans (congrArg wf heq)).symm
  · intro hc
    rcases hc with hc | hc <;> rw [topVar, hc] <;> rfl

/-- Witness for the amended C3 at a concrete input. -/
theorem claim_C3_amended_witness :
    wf (varDiagram 1).node = true ∧ (inputsList (varDiagram 1).node).Nodup :=
  ⟨by decide, (claim_C3_amended (varDiagram 1) (by decide)).1⟩

/-- C4: the reduced-and-ordered invariant.  Every internal node reachable
from a diagram built by the public operations (enumerated by the post-order
traversal) has distinct children and a root strictly smaller than the root
of any non-terminal child; and the invariant (`wf`) is preserved by variable
construction, negation, `_ite` and `_restrict`. -/
theorem claim_C4 (n f g h : N) (u : Nat) (pt : Nat → Option Bool)
    (hn : Built n) (hu : 0 < u)
    (hf : wf f = true) (hg : wf g = true) (hh : wf h = true) :
    (∀ m ∈ (dfsPost n []).1, ∀ r lo hi, m = N.node r lo hi →
      lo ≠ hi ∧ (∀ s l2 h2, lo = N.node s l2 h2 → r < s) ∧
        (∀ s l2 h2, hi = N.node s l2 h2 → r < s)) ∧
    wf (varNode u) = true ∧ wf (_neg f) = true ∧ wf (_ite f g h) = true ∧
    wf (_restrict pt f) = true := by
  refine ⟨?_, wf_varNode hu, wfLB_neg hf, wf_ite hf hg hh, wfLB_restrict hf⟩
  intro m hm r lo hi hmeq
  have hwfm : wf m = true := dfsPost_yield_wf n [] (wf_built hn) hm
  rw [hmeq] at hwfm
  have hparts := (wfLB_node_iff 0 r lo hi).mp hwfm
  refine ⟨hparts.2.1, ?_, ?_⟩
  · intro s l2 h2 hlo
    rw [hlo] at hparts
    exact ((wfLB_node_iff r s l2 h2).mp hparts.2.2.1).1
  · intro s l2 h2 hhi
    rw [hhi] at hparts
    exact ((wfLB_node_iff r s l2 h2).mp hparts.2.2.2).1

/-- Witness for C4 at concrete inputs. -/
theorem claim_C4_witness :
    wf (varNode 1) = true ∧ wf (_neg (varNode 2)) = true ∧
    wf (_ite (varNode 1) (varNode 2) (varNode 3)) = true ∧
    wf (_restrict (single 1 true) (varNode 1)) = true :=
  (claim_C4 (varNode 1) (varNode 1) (varNode 2) (varNode 3) 1 (single 1 true)
    (Built.var 1 (by decide)) (by decide) (by decide) (by decide) (by decide)).2

/-- C5: restrict idempotence.  For a well-formed diagram `f` and a variable
`x` in its support, restricting `x` to true and then restricting the result
again at `x` (to any value) returns the same diagram, and `x` no longer
appears in the restricted diagram's support. -/
theorem claim_C5 (f : OrderedBinaryDecisionDiagram) (x : Nat) (b : Bool)
    (hwf : wf f.node = true) (hx : x ∈ inputsList f.node) :
    diagRestrict1 (diagRestrict1 f x true) x b = diagRestrict1 f x true ∧
    x ∉ inputsList (diagRestrict1 f x true).node := by
  have hwf1 : wf (_restrict (single x true) f.node) = true := wfLB_restrict hwf
  have hxe : ∀ y, y ∈ vars (_restrict (single x true) f.node) → y ≠ x := by
    intro y hy
    exact (Finset.mem_erase.mp (vars_restrict_single x true f.node hy)).1
  constructor
  · apply diagram_ext
    show _restrict (single x b) (_restrict (single x true) f.node) =
      _restrict (single x true) f.node
    refine restrict_id hwf1 ?_
    intro y hy
    simp [single, hxe y hy]
  · intro hmem
    rw [show (diagRestrict1 f x true).node = _restrict (single x true) f.node from rfl]
      at hmem
    rw [mem_inputsList_iff hwf1 x] at hmem
    exact hxe x hmem rfl

/-- Witness for C5 at concrete inputs. -/
theorem claim_C5_witness :
    (wf (varDiagram 1).node = true ∧ 1 ∈ inputsList (varDiagram 1).node) ∧
    diagRestrict1 (diagRestrict1 (varDiagram 1) 1 true) 1 false =
      diagRestrict1 (varDiagram 1) 1 true :=
  ⟨⟨by decide, by decide⟩,
    (claim_C5 (varDiagram 1) 1 false (by decide) (by decide)).1⟩

/-- C6: algebraic laws.  For well-formed diagrams `f, g`: double negation is
the identity, De Morgan relates NOT/OR/AND, `f XOR f` is the constant-false
diagram, `f OR NOT f` is the constant-true diagram, `f AND TRUE` is `f`, and
`f AND FALSE` is the constant-false diagram — all as identity of diagrams. -/
theorem claim_C6 (f g : OrderedBinaryDecisionDiagram)
    (hf : wf f.node = true) (hg : wf g.node = true) :
    bddNot (bddNot f) = f ∧
    bddNot (bddOr f g) = bddAnd (bddNot f) (bddNot g) ∧
    bddXor f f = BDDZERO ∧
    bddOr f (bddNot f) = BDDONE ∧
    bddAnd f BDDONE = f ∧
    bddAnd f BDDZERO = BDDZERO := by
  refine ⟨?_, ?_, ?_, ?_, ?_, ?_⟩
  · apply diagram_ext
    show _neg (_neg f.node) = f.node
    refine canonical (wfLB_neg (wfLB_neg hf)) hf ?_
    intro env
    rw [evalN_neg, evalN_neg, Bool.not_not]
  · apply diagram_ext
    show _neg (_ite f.node N.one g.node) = _ite (_neg f.node) (_neg g.node) N.zero
    refine canonical (wfLB_neg (wf_ite hf wf_one hg))
      (wf_ite (wfLB_neg hf) (wfLB_neg hg) wf_zero) ?_
    intro env
    rw [evalN_neg, evalN_ite env hf wf_one hg,
      evalN_ite env (wfLB_neg hf) (wfLB_neg hg) wf_zero, evalN_neg, evalN_neg]
    cases evalN f.node env <;> cases evalN g.node env <;> rfl
  · apply diagram_ext
    show _ite f.node (_neg f.node) f.node = N.zero
    refine canonical (wf_ite hf (wfLB_neg hf) hf) wf_zero ?_
    intro env
    rw [evalN_ite env hf (wfLB_neg hf) hf, evalN_neg]
    cases evalN f.node env <;> rfl
  · apply diagram_ext
    show _ite f.node N.one (_neg f.node) = N.one
    refine canonical (wf_ite hf wf_one (wfLB_neg hf)) wf_one ?_
    intro env
    rw [evalN_ite env hf wf_one (wfLB_neg hf), evalN_neg]
    cases evalN f.node env <;> rfl
  · apply diagram_ext
    show _ite f.node N.one N.zero = f.node
    exact ite_one_zero f.node
  · apply diagram_ext
    show _ite f.node N.zero N.zero = N.zero
    exact ite_same f.node N.zero

/-- Witness for C6 at concrete inputs. -/
theorem claim_C6_witness :
    wf (varDiagram 1).node = true ∧
    bddNot (bddNot (varDiagram 1)) = varDiagram 1 :=
  ⟨by decide, (claim_C6 (varDiagram 1) (varDiagram 2) (by decide) (by decide)).1⟩

/-- C7: variable resolution fails (raising a `TypeError` or `ValueError`, the
spec's `InvalidIdentifier` taxonomy) if and only if the names sequence is
empty, a name is not a string, an index is negative, or the name/index
argument has the wrong type; on an error the registry state is unchanged, and
on every other input a `Variable` is returned without error. -/
theorem claim_C7 (st : RegState) (nm : NameInput) (ix : IndexInput) :
    (isErr (var st nm ix).1 = true ↔ badInput nm ix = true) ∧
    (isErr (var st nm ix).1 = true → (var st nm ix).2 = st) ∧
    (isErr (var st nm ix).1 = false → ∃ v, (var st nm ix).1 = Except.ok v) := by
  refine ⟨?_, fun h => var_state_on_err h, fun h => var_ok_of_not_err h⟩
  rw [var_isErr]

/-- Witness for C7 at concrete inputs. -/
theorem claim_C7_witness :
    isErr (var regInit (NameInput.tup []) IndexInput.none).1 = true ∧
    (var regInit (NameInput.tup []) IndexInput.none).2 = regInit :=
  ⟨by decide,
    (claim_C7 regInit (NameInput.tup []) IndexInput.none).2.1 (by decide)⟩

/-- C8: registry memoization and id allocation (sequential runs).  After any
sequence of requests from the initial state: the recorded uniqids are
`1, 2, …, COUNT - 1` in first-request order (monotonic allocation starting
at 1); a recorded id is never changed by later requests; re-requesting an
identity returns the identical `Variable` instance with no state change; and
two distinct identities requested in sequence receive distinct uniqids. -/
theorem claim_C8 (ks post : List Identity) (k k1 k2 : Identity)
    (hk : k1 ≠ k2) :
    ((runList regInit ks).UNIQIDS.map Prod.snd =
      List.range' 1 ((runList regInit ks).COUNT - 1)) ∧
    (∀ u, alookup k (runList regInit ks).UNIQIDS = some u →
      alookup k (runList (runList regInit ks) post).UNIQIDS = some u) ∧
    (varReq (runList ((varReq (runList regInit ks) k).2) post) k =
      ((varReq (runList regInit ks) k).1,
        runList ((varReq (runList regInit ks) k).2) post)) ∧
    ((varReq ((varReq (runList regInit ks) k1).2) k2).1.uniqid ≠
      ((varReq (runList regInit ks) k1).1).uniqid) := by
  have hinv := runList_inv Inv_init ks
  obtain ⟨hinvk, hVk, hUk, -, -, -⟩ := varReq_spec hinv k
  refine ⟨hinv.2.1, ?_, ?_, varReq_distinct hinv hk⟩
  · intro u hu
    exact runList_pres_U hinv post hu
  · exact varReq_stable (runList_pres_V hinvk post hVk)

/-- Witness for C8 at concrete inputs. -/
theorem claim_C8_witness :
    idA ≠ idB ∧
    ((varReq ((varReq (runList regInit []) idA).2) idB).1.uniqid ≠
      ((varReq (runList regInit []) idA).1).uniqid) :=
  ⟨by decide, (claim_C8 [] [] idA idA idB (by decide)).2.2.2⟩

/-- C9 (code bug): the claim and the spec require the id allocation of
`Variable.__init__` to run as a single guarded critical section, but the code
acquires a lock constructed fresh on every call (`with threading.Lock():`),
which guards nothing.  In the two-step interleaving model this theorem
exhibits a schedule — thread 1 reads for the unseen identity `a`, thread 2
allocates identity `b`, thread 3 allocates the same identity `a`, thread 1
resumes — after which the two threads that requested the same
previously-unseen identity `a` hold the different uniqids 1 and 2 (and `b`
holds 1 as well, breaking the identity-to-id bijection). -/
theorem claim_C9_bug :
    raceU1 = 1 ∧ raceU3 = 2 ∧ raceU1 ≠ raceU3 ∧
    alookup idA raceSt4.UNIQIDS = some 2 ∧
    alookup idB raceSt4.UNIQIDS = some 1 ∧
    raceSt4.COUNT = 3 :=
  ⟨by decide, by decide, by decide, by decide, by decide, by decide⟩

/-- C10: the fallback branch of `box` always raises `TypeError` (the name
`boolean` it calls is the imported module, not a callable): `box(obj)` errors
exactly when `obj` is not a diagram, not equal to 0, 1, "0" or "1", and not a
boolean; and `bool()` on the constant diagrams raises `TypeError` through
`BDDConstant.__bool__` instead of returning their truth value. -/
theorem claim_C10 (v : PyVal) :
    (box v = Except.error PyError.typeError ↔
      (isDiagramVal v = false ∧ pyEqInt v 0 = false ∧ pyEqStr v "0" = false ∧
       pyEqInt v 1 = false ∧ pyEqStr v "1" = false ∧ isBoolVal v = false)) ∧
    bddConstantBool 0 = Except.error PyError.typeError ∧
    bddConstantBool 1 = Except.error PyError.typeError := by
  refine ⟨?_, rfl, rfl⟩
  cases v with
  | diagram d => simp [box, isDiagramVal]
  | int n =>
    by_cases h0 : n = 0
    · simp [box, pyEqInt, pyEqStr, isDiagramVal, isBoolVal, h0]
    · by_cases h1 : n = 1
      · simp [box, pyEqInt, pyEqStr, isDiagramVal, isBoolVal, h0, h1]
      · simp [box, pyEqInt, pyEqStr, isDiagramVal, isBoolVal, h0, h1]
  | str s =>
    by_cases h0 : s = "0"
    · simp [box, pyEqInt, pyEqStr, isDiagramVal, isBoolVal, h0]
    · by_cases h1 : s = "1"
      · simp [box, pyEqInt, pyEqStr, isDiagramVal, isBoolVal, h0, h1]
      · simp [box, pyEqInt, pyEqStr, isDiagramVal, isBoolVal, h0, h1]
  | bool b => cases b <;> simp [box, pyEqInt, pyEqStr, isDiagramVal, isBoolVal]
  | other => simp [box, pyEqInt, pyEqStr, isDiagramVal, isBoolVal]

end OBDDSpec
